import Mathlib

/-!
Verification development for the Discord Yoink backup/restore engine.

The definitions below are a shallow embedding of the Python sources:
`src/backup_chain.py` (chain discovery and chain merging) and
`src/server_recreator.py` (reconciliation preview/apply, emoji
restoration, message replay).  Python dictionaries are modelled as
association lists with insert-or-overwrite update (preserving the
position of an existing key, as CPython dicts do), Python strings as
Lean strings manipulated through their character lists, truthiness of
optional strings as "present and non-empty", and `list.sort` (a stable
ascending sort) as `List.insertionSort`, which is extensionally the
same stable sort.  Remote side effects (creating or deleting entities
on the live guild) are modelled by explicit state passing: the lists
of names present on the target evolve as entities are created or
removed, and each function returns the names it acted on.
-/

/-! ### Association lists standing for Python dicts -/

/-- Lookup in an association list, mirroring Python `d[k]` / `d.get(k)`. -/
def lookupA {α : Type} (k : String) : List (String × α) → Option α
  | [] => none
  | (k', v) :: rest => if k' = k then some v else lookupA k rest

/-- Insert-or-overwrite, mirroring Python `d[k] = v`: an existing key keeps
its position, a new key is appended at the end. -/
def updA {α : Type} (m : List (String × α)) (k : String) (v : α) : List (String × α) :=
  match m with
  | [] => [(k, v)]
  | (k', v') :: rest => if k' = k then (k, v) :: rest else (k', v') :: updA rest k v

/-- Key-wise union, mirroring Python `d.update(other)`. -/
def updAll {α : Type} (m : List (String × α)) (inc : List (String × α)) : List (String × α) :=
  inc.foldl (fun acc p => updA acc p.1 p.2) m

/-! ### Python string operations

Python compares strings lexicographically by code point; `s[:n]` takes the
first `n` characters; `s.lower()` lower-cases character-wise.  The library
`String.take`/`String.toLower` are byte-position based and do not reduce in
the kernel, so the operations are defined on the character list. -/

/-- Lexicographic (code-point) order on character lists, as Python compares
strings. -/
def charLe : List Char → List Char → Bool
  | [], _ => true
  | _ :: _, [] => false
  | a :: as, b :: bs =>
    if a.toNat < b.toNat then true
    else if b.toNat < a.toNat then false
    else charLe as bs

/-- Python string comparison `a <= b`. -/
def strLe (a b : String) : Bool := charLe a.data b.data

/-- Python slice `s[:n]`. -/
def pyTake (s : String) (n : Nat) : String := ⟨s.data.take n⟩

/-- Python `s.lower()` (ASCII case mapping, as the names in play are ASCII). -/
def pyLower (s : String) : String := ⟨s.data.map Char.toLower⟩

theorem charLe_total : ∀ a b, (charLe a b || charLe b a) = true := by
  intro a
  induction a with
  | nil => intro b; simp [charLe]
  | cons x xs ih =>
    intro b
    cases b with
    | nil => simp [charLe]
    | cons y ys =>
      by_cases h1 : x.toNat < y.toNat
      · simp [charLe, h1]
      · by_cases h2 : y.toNat < x.toNat
        · simp [charLe, h1, h2]
        · simpa [charLe, h1, h2] using ih ys

theorem charLe_trans : ∀ a b c, charLe a b = true → charLe b c = true → charLe a c = true := by
  intro a
  induction a with
  | nil => intro b c _ _; simp [charLe]
  | cons x xs ih =>
    intro b c hab hbc
    cases b with
    | nil => simp [charLe] at hab
    | cons y ys =>
      cases c with
      | nil => simp [charLe] at hbc
      | cons z zs =>
        simp only [charLe] at hab hbc ⊢
        by_cases hxy : x.toNat < y.toNat
        · by_cases hyz : y.toNat < z.toNat
          · have : x.toNat < z.toNat := Nat.lt_trans hxy hyz
            simp [this]
          · by_cases hzy : z.toNat < y.toNat
            · simp [hxy, hyz, hzy] at hbc
            · have hyz' : y.toNat = z.toNat := Nat.le_antisymm (Nat.le_of_not_lt hzy) (Nat.le_of_not_lt hyz)
              have : x.toNat < z.toNat := hyz' ▸ hxy
              simp [this]
        · by_cases hyx : y.toNat < x.toNat
          · simp [hxy, hyx] at hab
          · have hxy' : x.toNat = y.toNat := Nat.le_antisymm (Nat.le_of_not_lt hyx) (Nat.le_of_not_lt hxy)
            by_cases hyz : y.toNat < z.toNat
            · have : x.toNat < z.toNat := hxy' ▸ hyz
              simp [this]
            · by_cases hzy : z.toNat < y.toNat
              · simp [hyz, hzy] at hbc
              · have hxz : ¬ x.toNat < z.toNat := by omega
                have hzx : ¬ z.toNat < x.toNat := by omega
                simp only [hyz, hzy, if_neg, if_false] at hbc
                simp only [hxz, hzx, if_neg, if_false]
                simp only [hxy, hyx, if_neg, if_false] at hab
                exact ih ys zs hab hbc

theorem strLe_total (a b : String) : (strLe a b || strLe b a) = true := charLe_total _ _

theorem strLe_trans {a b c : String} (h1 : strLe a b = true) (h2 : strLe b c = true) :
    strLe a c = true := charLe_trans _ _ _ h1 h2

/-! ### Snapshot data model

Mirror of the JSON snapshot documents handled by `backup_chain.py`.
Fields accessed through `dict.get` with a default are `Option`s; maps are
association lists; absent top-level maps are identified with empty ones
(the merge code materialises missing keys as `{}` before using them).
Stats values are the integer counters the merge arithmetic touches. -/

structure MessageRec where
  id : Option String
  timestamp : Option String
  content : String
deriving DecidableEq, Repr

structure ChannelData where
  name : Option String
  ctype : Option String
  messages : List MessageRec
deriving DecidableEq, Repr

structure RoleData where
  name : Option String
  position : Option Nat
deriving DecidableEq, Repr

structure EmojiData where
  name : Option String
  local_path : Option String
deriving DecidableEq, Repr

structure ChainProvenance where
  full_backup : String
  incremental_backups : List String
  total_backups_merged : Nat
  messages_added_from_incrementals : Nat
  media_added_from_incrementals : Nat
deriving DecidableEq, Repr

structure BackupStamp where
  version : String
  timestamp : String
  incremental : Bool
  backup_name : String
  chain_info : Option ChainProvenance
deriving DecidableEq, Repr

structure Snapshot where
  server_id : String
  server_name : String
  backup_info : Option BackupStamp
  channels : List (String × ChannelData)
  roles : List (String × RoleData)
  emojis : List (String × EmojiData)
  stickers : List (String × EmojiData)
  stats : List (String × Nat)
deriving DecidableEq, Repr

/-- One entry of a backup chain as built by `_discover_chains`: the metadata
record `{path, server_name, timestamp, is_incremental, ...}` extracted from a
parsed snapshot file, together with the parsed snapshot itself (standing for
the file that `merge_chain` re-loads from `path`). -/
structure BackupEntry where
  path : String
  server_id : String
  server_name : String
  timestamp : String
  is_incremental : Bool
  data : Snapshot
deriving DecidableEq, Repr

/-! ### Chain discovery (`BackupChain._discover_chains`) -/

/-- Chain key used when a chain is saved:
`f"{current_full['server_name']}_{current_full['timestamp'][:19]}"`. -/
def chainKey (b : BackupEntry) : String := b.server_name ++ "_" ++ pyTake b.timestamp 19

/-- Grouping loop of `_discover_chains`: `server_backups[server_id].append(...)`
in file order. -/
def groupByServer (bs : List BackupEntry) : List (String × List BackupEntry) :=
  bs.foldl (fun m b => updA m b.server_id ((lookupA b.server_id m).getD [] ++ [b])) []

/-- Ascending-timestamp order used by `backups.sort(key=lambda x: x["timestamp"])`. -/
def entryLe (x y : BackupEntry) : Prop := strLe x.timestamp y.timestamp = true

instance : DecidableRel entryLe := fun x y => decEq _ _

/-- State of the chain-building scan: chains saved so far, the currently open
full backup, and the currently open chain. -/
structure BuildState where
  chains : List (String × List BackupEntry)
  current_full : Option BackupEntry
  chain : List BackupEntry

/-- One step of the chain-building scan over the timestamp-sorted backups of
one server: a full backup flushes any open chain and opens a new one; an
incremental is appended to the open chain, or dropped if none is open. -/
def buildStep (st : BuildState) (b : BackupEntry) : BuildState :=
  if b.is_incremental = false then
    match st.current_full with
    | some cf =>
      if st.chain ≠ [] then
        { chains := updA st.chains (chainKey cf) st.chain, current_full := some b, chain := [b] }
      else
        { chains := st.chains, current_full := some b, chain := [b] }
    | none => { chains := st.chains, current_full := some b, chain := [b] }
  else
    match st.current_full with
    | some _ => { st with chain := st.chain ++ [b] }
    | none => st

/-- Chain building for one server's sorted backups, including the final
`if current_full and chain: self.chains[chain_key] = chain`. -/
def buildChains (chains0 : List (String × List BackupEntry)) (bs : List BackupEntry) :
    List (String × List BackupEntry) :=
  let st := bs.foldl buildStep { chains := chains0, current_full := none, chain := [] }
  match st.current_full with
  | some cf => if st.chain ≠ [] then updA st.chains (chainKey cf) st.chain else st.chains
  | none => st.chains

/-- `_discover_chains`, starting from the already-parsed backup entries (files
that fail to parse or lack `server_info` have been filtered out by the scan). -/
def discover_chains (bs : List BackupEntry) : List (String × List BackupEntry) :=
  (groupByServer bs).foldl (fun acc g => buildChains acc (List.insertionSort entryLe g.2)) []

/-! ### Chain merge (`BackupChain.merge_chain`) -/

/-- Python truthiness of an optional string (`None` and `""` are falsy). -/
def truthyStr : Option String → Bool
  | none => false
  | some s => !(s == "")

/-- Truthiness of `msg.get("id")`. -/
def truthyId (m : MessageRec) : Bool := truthyStr m.id

/-- The deduplication set
`{msg.get("id") for msg in existing_messages if msg.get("id")}`. -/
def dedupIds (msgs : List MessageRec) : List String :=
  msgs.filterMap fun m =>
    match m.id with
    | some s => if s = "" then none else some s
    | none => none

/-- Messages of the incremental channel that survive the per-merge-step
deduplication: `if msg.get("id") and msg["id"] not in existing_msg_ids`. -/
def new_messages_for (existing incoming : List MessageRec) : List MessageRec :=
  let ids := dedupIds existing
  incoming.filter fun m => truthyId m && !(ids.contains (m.id.getD ""))

/-- Ascending-timestamp order used by
`existing_messages.sort(key=lambda x: x.get("timestamp", ""))`. -/
def msgLe (x y : MessageRec) : Prop :=
  strLe (x.timestamp.getD "") (y.timestamp.getD "") = true

instance : DecidableRel msgLe := fun x y => decEq _ _

/-- Merge of one incremental channel's messages into the base channel's:
append the deduplicated new messages, then re-sort by timestamp. -/
def merge_messages (existing incoming : List MessageRec) : List MessageRec :=
  List.insertionSort msgLe (existing ++ new_messages_for existing incoming)

/-- Channel-map merge for one incremental snapshot, also counting the messages
added (`messages_added` accumulated into `total_messages_added`). -/
def merge_channels (mchs : List (String × ChannelData)) (incChs : List (String × ChannelData)) :
    List (String × ChannelData) × Nat :=
  incChs.foldl
    (fun acc p =>
      match lookupA p.1 acc.1 with
      | some base =>
        (updA acc.1 p.1 { base with messages := merge_messages base.messages p.2.messages },
         acc.2 + (new_messages_for base.messages p.2.messages).length)
      | none => (updA acc.1 p.1 p.2, acc.2 + p.2.messages.length))
    (mchs, 0)

/-- `merge_chain`.  The two wall-clock reads (`datetime.now().isoformat()` and
`datetime.now().strftime('%Y%m%d_%H%M%S')`) are passed in as `now` and
`nowStamp`; loading a backup file is reading `.data` of its entry. -/
def merge_chain (now nowStamp : String) (chain : List BackupEntry) : Except String Snapshot :=
  match chain with
  | [] => .error "Cannot merge empty chain"
  | full :: rest =>
    if full.is_incremental then .error "Chain must start with a full backup"
    else
      let step := fun (acc : Snapshot × Nat × Nat) (inc : BackupEntry) =>
        if inc.is_incremental = false then acc
        else
          let md := acc.1
          let merged := merge_channels md.channels inc.data.channels
          ({ md with
              channels := merged.1,
              roles := updAll md.roles inc.data.roles,
              emojis := updAll md.emojis inc.data.emojis,
              stickers := updAll md.stickers inc.data.stickers },
           acc.2.1 + merged.2,
           acc.2.2 + (lookupA "media_files" inc.data.stats).getD 0)
      let folded := rest.foldl step (full.data, 0, 0)
      let md := folded.1
      let total_messages_added := folded.2.1
      let total_media_added := folded.2.2
      let stamp : BackupStamp :=
        { version := "1.1.1"
          timestamp := now
          incremental := false
          backup_name := "MERGED_" ++ full.server_name ++ "_" ++ nowStamp
          chain_info := some
            { full_backup := full.path
              incremental_backups := rest.map (fun b => b.path)
              total_backups_merged := chain.length
              messages_added_from_incrementals := total_messages_added
              media_added_from_incrementals := total_media_added } }
      let st1 := updA md.stats "total_messages"
        ((lookupA "total_messages" md.stats).getD 0 + total_messages_added)
      let st2 := updA st1 "total_media_files"
        ((lookupA "media_files" st1).getD 0 + total_media_added)
      .ok { md with backup_info := some stamp, stats := st2 }

/-! ### Reconciliation (`ServerRecreator`)

The live target guild is modelled by the lists of entities currently on it:
channels (name and type, so that `guild.categories` is the sublist of
category-typed channels), role names, and emoji names.  Transport errors are
not modelled: every create/delete call succeeds, matching the state examined
by the claims.  Newly created entities become visible to later name checks,
as they do through the client cache. -/

structure GChannel where
  name : String
  ctype : String
deriving DecidableEq, Repr

/-- Name set `{channel_data.get("name", "").lower() for ... if channel_data.get("name")}`
shared (textually) by `preview_recreation` and `_cleanup_server`. -/
def backup_channel_names (bcs : List (String × ChannelData)) : List String :=
  bcs.filterMap fun p =>
    match p.2.name with
    | some s => if s = "" then none else some (pyLower s)
    | none => none

/-- Role-name counterpart of `backup_channel_names`. -/
def backup_role_names (brs : List (String × RoleData)) : List String :=
  brs.filterMap fun p =>
    match p.2.name with
    | some s => if s = "" then none else some (pyLower s)
    | none => none

/-- `preview["channels_to_remove"]`. -/
def preview_channels_to_remove (gchannels : List GChannel) (bcs : List (String × ChannelData)) :
    List String :=
  (gchannels.filter fun c => !((backup_channel_names bcs).contains (pyLower c.name))).map
    (fun c => c.name)

/-- `preview["roles_to_remove"]` (the implicit `@everyone` role is never listed). -/
def preview_roles_to_remove (groles : List String) (brs : List (String × RoleData)) :
    List String :=
  groles.filter fun r => !(r == "@everyone") && !((backup_role_names brs).contains (pyLower r))

/-- `preview["roles_to_create"]`: backup roles whose lower-cased name is not among
the lower-cased names of the target's current roles. -/
def preview_roles_to_create (groles : List String) (brs : List (String × RoleData)) :
    List String :=
  let existing := groles.map pyLower
  (brs.filter fun p => !(existing.contains (pyLower (p.2.name.getD "Unknown")))).map
    (fun p => p.2.name.getD "Unknown")

/-- `preview["channels_to_create"]`. -/
def preview_channels_to_create (gchannels : List GChannel) (bcs : List (String × ChannelData)) :
    List String :=
  let existing := gchannels.map fun c => pyLower c.name
  (bcs.filter fun p => !(existing.contains (pyLower (p.2.name.getD "Unknown")))).map
    (fun p => p.2.name.getD "Unknown")

/-- Channel half of `_cleanup_server`: returns the surviving channels and the
names of the removed ones (every delete call succeeds). -/
def cleanup_channels (gchannels : List GChannel) (bcs : List (String × ChannelData)) :
    List GChannel × List String :=
  ((gchannels.filter fun c => (backup_channel_names bcs).contains (pyLower c.name)),
   (gchannels.filter fun c => !((backup_channel_names bcs).contains (pyLower c.name))).map
     (fun c => c.name))

/-- Role half of `_cleanup_server` (`@everyone` is always kept). -/
def cleanup_roles (groles : List String) (brs : List (String × RoleData)) :
    List String × List String :=
  ((groles.filter fun r => r == "@everyone" || (backup_role_names brs).contains (pyLower r)),
   groles.filter fun r => !(r == "@everyone") && !((backup_role_names brs).contains (pyLower r)))

/-- Position order of `sorted(roles_data.items(), key=lambda x: x[1].get("position", 0))`. -/
def posLe (x y : String × RoleData) : Prop := x.2.position.getD 0 ≤ y.2.position.getD 0

instance : DecidableRel posLe := fun x y => Nat.decLe _ _

/-- Creation loop of `_recreate_roles` over the position-sorted roles: a role
whose exact name already exists on the target is skipped; a role without a
name raises `KeyError`, which the catch-all handler turns into a skip;
otherwise the role is created.  Returns the final role list and the created
names in creation order. -/
def recreate_roles_go (groles : List String) :
    List (String × RoleData) → List String × List String
  | [] => (groles, [])
  | p :: rest =>
    match p.2.name with
    | none => recreate_roles_go groles rest
    | some n =>
      if groles.contains n then recreate_roles_go groles rest
      else
        let t := recreate_roles_go (groles ++ [n]) rest
        (t.1, n :: t.2)

/-- `_recreate_roles`. -/
def recreate_roles (groles : List String) (brs : List (String × RoleData)) :
    List String × List String :=
  recreate_roles_go groles (List.insertionSort posLe brs)

/-- Category phase of `_recreate_channels`: the existence check is against
`guild.categories`, i.e. only category-typed channels. -/
def recreate_categories_go (gchannels : List GChannel) :
    List (String × ChannelData) → List GChannel × List String
  | [] => (gchannels, [])
  | p :: rest =>
    match p.2.name with
    | none => recreate_categories_go gchannels rest
    | some n =>
      if (gchannels.filter fun c => c.ctype == "category").any (fun c => c.name == n) then
        recreate_categories_go gchannels rest
      else
        let t := recreate_categories_go (gchannels ++ [⟨n, "category"⟩]) rest
        (t.1, n :: t.2)

/-- Regular-channel phase of `_recreate_channels`: the existence check is
against all of `guild.channels`; a channel of unsupported type is skipped
with a warning (a forum channel is created, by `create_forum` or by the
text-channel fallback). -/
def recreate_regular_go (gchannels : List GChannel) :
    List (String × ChannelData) → List GChannel × List String
  | [] => (gchannels, [])
  | p :: rest =>
    match p.2.name with
    | none => recreate_regular_go gchannels rest
    | some n =>
      if gchannels.any (fun c => c.name == n) then recreate_regular_go gchannels rest
      else
        let ty := p.2.ctype.getD "text"
        if ty == "text" || ty == "voice" || ty == "forum" then
          let t := recreate_regular_go (gchannels ++ [⟨n, ty⟩]) rest
          (t.1, n :: t.2)
        else recreate_regular_go gchannels rest

/-- `_recreate_channels`: categories first, then the remaining channels. -/
def recreate_channels (gchannels : List GChannel) (bcs : List (String × ChannelData)) :
    List GChannel × List String :=
  let cats := bcs.filter fun p => p.2.ctype == some "category"
  let regs := bcs.filter fun p => !(p.2.ctype == some "category")
  let s1 := recreate_categories_go gchannels cats
  let s2 := recreate_regular_go s1.1 regs
  (s2.1, s1.2 ++ s2.2)

/-- Entity names acted on by one `recreate_server` run against a target in the
starting state `(gchannels, groles)`: cleanup removals followed by role and
channel creation, each phase seeing the state left by the previous one. -/
structure ApplySets where
  channels_removed : List String
  roles_removed : List String
  roles_created : List String
  channels_created : List String
deriving DecidableEq, Repr

/-- The removal/creation traces of `recreate_server` (steps 1-3; the later
steps do not remove or create channels or roles). -/
def recreate_server_sets (gchannels : List GChannel) (groles : List String)
    (bcs : List (String × ChannelData)) (brs : List (String × RoleData)) : ApplySets :=
  let c := cleanup_channels gchannels bcs
  let r := cleanup_roles groles brs
  let rr := recreate_roles r.1 brs
  let cc := recreate_channels c.1 bcs
  { channels_removed := c.2
    roles_removed := r.2
    roles_created := rr.2
    channels_created := cc.2 }

/-! ### Emoji restoration (`_recreate_emojis`) -/

/-- Emoji creation loop.  Per entry: skip if an emoji of that name exists;
then, at or above the limit, break with the "limit reached" warning when
enforcement is on, or log-and-continue when `ignore_emoji_limit` bypasses it;
skip entries whose cached file is missing; otherwise create the emoji.
Returns the created names and whether the enforced-limit warning fired. -/
def recreate_emojis_go (ignore_emoji_limit : Bool) (emoji_limit : Nat)
    (fileExists : String → Bool) (guild_emojis : List String) :
    List (String × EmojiData) → List String × Bool
  | [] => ([], false)
  | p :: rest =>
    match p.2.name with
    | none => recreate_emojis_go ignore_emoji_limit emoji_limit fileExists guild_emojis rest
    | some n =>
      if guild_emojis.contains n then
        recreate_emojis_go ignore_emoji_limit emoji_limit fileExists guild_emojis rest
      else if !ignore_emoji_limit && decide (emoji_limit ≤ guild_emojis.length) then
        ([], true)
      else
        match p.2.local_path with
        | none => recreate_emojis_go ignore_emoji_limit emoji_limit fileExists guild_emojis rest
        | some pa =>
          if pa == "" || !(fileExists pa) then
            recreate_emojis_go ignore_emoji_limit emoji_limit fileExists guild_emojis rest
          else
            let t := recreate_emojis_go ignore_emoji_limit emoji_limit fileExists
              (guild_emojis ++ [n]) rest
            (n :: t.1, t.2)

/-- `_recreate_emojis`. -/
def recreate_emojis (ignore_emoji_limit : Bool) (emoji_limit : Nat)
    (fileExists : String → Bool) (guild_emojis : List String)
    (emojis_data : List (String × EmojiData)) : List String × Bool :=
  recreate_emojis_go ignore_emoji_limit emoji_limit fileExists guild_emojis emojis_data

/-! ### Message replay (`_restore_messages` / `_restore_single_message`) -/

/-- Replay slice of `_restore_messages`: the sentinel `0` means unlimited,
otherwise `messages[-max_messages:]` when the list is longer than the cap. -/
def messages_to_restore (max_messages : Nat) (messages : List MessageRec) : List MessageRec :=
  if max_messages = 0 then messages
  else if messages.length > max_messages then
    messages.drop (messages.length - max_messages)
  else messages

/-- Attachment record as consumed by `_restore_single_message`. -/
structure AttachmentRec where
  filename : Option String
  local_path : Option String
deriving DecidableEq, Repr

/-- Reply/forward reference metadata (`message.get("reference")`). -/
structure RefInfo where
  channel_name : Option String
deriving DecidableEq, Repr

/-- Cross-server forward metadata (`message.get("cross_server_metadata")`). -/
structure CrossMeta where
  guild_name : Option String
  note : Option String
deriving DecidableEq, Repr

/-- Archived message as consumed by `_restore_single_message` (the author
dict is flattened to the two fields read from it; only the number of embeds
matters, so embeds are a count). -/
structure RMessage where
  content : Option String
  username : Option String
  avatar_url : Option String
  attachments : List AttachmentRec
  embeds : Nat
  timestamp : Option String
  reference : Option RefInfo
  is_cross_server_forward : Bool
  cross_server_metadata : Option CrossMeta
deriving DecidableEq, Repr

/-- Python `timestamp.replace("T", " ").replace("Z", " UTC")`. -/
def pyFormatTime (s : String) : String :=
  ⟨(s.data.map fun c => if c = 'T' then ' ' else c).foldr
    (fun c acc => (if c = 'Z' then " UTC".data else [c]) ++ acc) []⟩

/-- Truncation to the platform message ceiling:
`if len(s) > 2000: s = s[:1997] + "..."`. -/
def truncate2000 (s : String) : String :=
  if s.length > 2000 then pyTake s 1997 ++ "..." else s

/-- Placeholder notes appended for one attachment of the first five: nothing
when the cached file is attached, an inline note when it is too large or was
never downloaded. -/
def attachment_notes (fileExists : String → Bool) (fileSize : String → Nat)
    (full : String) (a : AttachmentRec) : String :=
  match a.local_path with
  | some pa =>
    if pa ≠ "" ∧ fileExists pa then
      if fileSize pa ≤ 25 * 1024 * 1024 then full
      else full ++ "\n*[Attachment too large: " ++ a.filename.getD "unknown" ++ "]*"
    else full ++ "\n*[Attachment not downloaded: " ++ a.filename.getD "unknown" ++ "]*"
  | none => full ++ "\n*[Attachment not downloaded: " ++ a.filename.getD "unknown" ++ "]*"

/-- Content composition and dispatch of `_restore_single_message`: returns the
text actually sent (through the webhook when one exists and the channel is a
text channel, otherwise through the author-prefixed fallback), or `none` when
the empty message is skipped. -/
def restore_single_message (fileExists : String → Bool) (fileSize : String → Nat)
    (has_webhook is_text_channel restore_media : Bool) (msg : RMessage) : Option String :=
  let content0 := msg.content.getD ""
  let username := msg.username.getD "Unknown User"
  let fwd0 :=
    if msg.reference.isSome then
      "*[Forwarded from #" ++
        ((msg.reference.map fun r => r.channel_name.getD "unknown").getD "unknown") ++ "]*\n"
    else ""
  let fwd1 :=
    if msg.is_cross_server_forward then
      "*[Cross-server forward from " ++
        ((msg.cross_server_metadata.map fun m => m.guild_name.getD "unknown server").getD
          "unknown server") ++ "]*\n"
    else fwd0
  let content1 :=
    if msg.is_cross_server_forward ∧ content0 = "" ∧
        truthyStr ((msg.cross_server_metadata.map fun m => m.note).getD none) then
      "*" ++ ((msg.cross_server_metadata.map fun m => m.note.getD "").getD "") ++ "*"
    else content0
  if content1 = "" ∧ msg.attachments = [] ∧ msg.embeds = 0 then none
  else
    let ts := msg.timestamp.getD ""
    let footer :=
      if ts ≠ "" then "\n*Original time: " ++ pyFormatTime ts ++ "*"
      else "\n*Original time: Unknown*"
    let full0 := fwd1 ++ content1 ++ footer
    let full1 :=
      if restore_media ∧ msg.attachments ≠ [] then
        (msg.attachments.take 5).foldl (attachment_notes fileExists fileSize) full0
      else full0
    let full2 := truncate2000 full1
    if has_webhook ∧ is_text_channel then some full2
    else some (truncate2000 ("**" ++ username ++ "**: " ++ full2))

/-! ### Basic lemmas about the dict model -/

theorem lookupA_updA_self {α : Type} (m : List (String × α)) (k : String) (v : α) :
    lookupA k (updA m k v) = some v := by
  induction m with
  | nil => simp [updA, lookupA]
  | cons p rest ih =>
    obtain ⟨k', v'⟩ := p
    by_cases h : k' = k
    · simp [updA, h, lookupA]
    · simp [updA, h, lookupA, ih]

theorem lookupA_updA_ne {α : Type} (m : List (String × α)) (k k' : String) (v : α)
    (h : k ≠ k') : lookupA k (updA m k' v) = lookupA k m := by
  have hne : ¬ k' = k := fun hh => h hh.symm
  induction m with
  | nil => simp [updA, lookupA, hne]
  | cons p rest ih =>
    obtain ⟨k1, v1⟩ := p
    by_cases h1 : k1 = k'
    · subst h1
      simp [updA, lookupA, hne]
    · simp only [updA, if_neg h1, lookupA]
      by_cases h2 : k1 = k
      · simp [h2]
      · simp [h2, ih]

theorem mem_updA {α : Type} {m : List (String × α)} {k : String} {v : α} {p : String × α}
    (h : p ∈ updA m k v) : p = (k, v) ∨ p ∈ m := by
  induction m with
  | nil =>
    simp only [updA, List.mem_singleton] at h
    exact Or.inl h
  | cons q rest ih =>
    obtain ⟨k1, v1⟩ := q
    simp only [updA] at h
    by_cases h1 : k1 = k
    · rw [if_pos h1] at h
      rcases List.mem_cons.mp h with h2 | h2
      · exact Or.inl h2
      · exact Or.inr (List.mem_cons_of_mem _ h2)
    · rw [if_neg h1] at h
      rcases List.mem_cons.mp h with h2 | h2
      · exact Or.inr (by simp [h2])
      · rcases ih h2 with h3 | h3
        · exact Or.inl h3
        · exact Or.inr (List.mem_cons_of_mem _ h3)

theorem mem_of_lookupA {α : Type} {m : List (String × α)} {k : String} {v : α}
    (h : lookupA k m = some v) : (k, v) ∈ m := by
  induction m with
  | nil => simp [lookupA] at h
  | cons q rest ih =>
    obtain ⟨k1, v1⟩ := q
    simp only [lookupA] at h
    by_cases h1 : k1 = k
    · rw [if_pos h1] at h
      have h2 := Option.some.inj h
      subst h1
      subst h2
      exact List.mem_cons_self _ _
    · rw [if_neg h1] at h
      exact List.mem_cons_of_mem _ (ih h)

theorem keys_updA {α : Type} (m : List (String × α)) (k : String) (v : α) :
    (updA m k v).map Prod.fst =
      if k ∈ m.map Prod.fst then m.map Prod.fst else m.map Prod.fst ++ [k] := by
  induction m with
  | nil => simp [updA]
  | cons q rest ih =>
    obtain ⟨k', v'⟩ := q
    by_cases h1 : k' = k
    · simp [updA, h1]
    · have h2 : ¬ k = k' := fun hh => h1 hh.symm
      by_cases h3 : k ∈ rest.map Prod.fst <;> simp [updA, h1, h2, h3, ih]

theorem nodup_keys_updA {α : Type} {m : List (String × α)} (k : String) (v : α)
    (h : (m.map Prod.fst).Nodup) : ((updA m k v).map Prod.fst).Nodup := by
  rw [keys_updA]
  by_cases h1 : k ∈ m.map Prod.fst
  · simpa [h1]
  · simpa [h1, List.nodup_append] using h

/-! ### Order facts used by the sorts -/

instance : IsTotal MessageRec msgLe :=
  ⟨fun a b => by
    have := strLe_total (a.timestamp.getD "") (b.timestamp.getD "")
    rcases Bool.or_eq_true_iff.mp this with h | h
    · exact Or.inl h
    · exact Or.inr h⟩

instance : IsTrans MessageRec msgLe :=
  ⟨fun _ _ _ h1 h2 => strLe_trans h1 h2⟩

instance : IsTotal BackupEntry entryLe :=
  ⟨fun a b => by
    have := strLe_total a.timestamp b.timestamp
    rcases Bool.or_eq_true_iff.mp this with h | h
    · exact Or.inl h
    · exact Or.inr h⟩

instance : IsTrans BackupEntry entryLe :=
  ⟨fun _ _ _ h1 h2 => strLe_trans h1 h2⟩

instance : IsTotal (String × RoleData) posLe :=
  ⟨fun a b => Nat.le_total _ _⟩

instance : IsTrans (String × RoleData) posLe :=
  ⟨fun _ _ _ h1 h2 => Nat.le_trans h1 h2⟩

/-! ### C4: merge preconditions -/

/-- C4: `merge_chain` fails with a validation error (and performs no merging)
exactly when the chain is empty or its first element is marked incremental;
a non-empty chain whose first element is non-incremental does not raise for
that reason. -/
theorem merge_chain_error_iff (now nowStamp : String) (chain : List BackupEntry) :
    (∃ msg, merge_chain now nowStamp chain = .error msg) ↔
      chain = [] ∨ ∃ f rest, chain = f :: rest ∧ f.is_incremental = true := by
  cases chain with
  | nil => simp [merge_chain]
  | cons f rest =>
    by_cases h : f.is_incremental = true
    · simp [merge_chain, h]
    · have h' : f.is_incremental = false := by simpa using h
      simp [merge_chain, h']

/-! ### C5: replay slice -/

/-- C5: with the sentinel cap `0` the whole archived list is replayed; with a
cap `N > 0` the slice has exactly `min N (length)` messages, is a suffix of
the archived list (hence replayed oldest-to-newest in the archived order),
and when the archived list is sorted ascending by timestamp the slice is the
most recent messages: it is sorted and every message left out is
timestamp-below every replayed one. -/
theorem messages_to_restore_spec (N : Nat) (l : List MessageRec) :
    (N = 0 → messages_to_restore N l = l) ∧
    (N ≠ 0 →
      (messages_to_restore N l).length = min N l.length ∧
      messages_to_restore N l <:+ l ∧
      (l.Pairwise msgLe →
        (messages_to_restore N l).Pairwise msgLe ∧
        ∀ x ∈ l.take (l.length - N), ∀ y ∈ messages_to_restore N l, msgLe x y)) := by
  constructor
  · intro h
    simp [messages_to_restore, h]
  · intro hN
    by_cases hlen : l.length > N
    · have hres : messages_to_restore N l = l.drop (l.length - N) := by
        simp [messages_to_restore, hN, hlen]
      refine ⟨?_, ?_, ?_⟩
      · rw [hres, List.length_drop]
        omega
      · rw [hres]
        exact List.drop_suffix _ _
      · intro hsort
        have hsplit : List.Pairwise msgLe (l.take (l.length - N) ++ l.drop (l.length - N)) := by
          rw [List.take_append_drop]
          exact hsort
        refine ⟨?_, ?_⟩
        · rw [hres]
          exact List.Pairwise.sublist (List.drop_sublist _ _) hsort
        · intro x hx y hy
          rw [hres] at hy
          exact (List.pairwise_append.mp hsplit).2.2 x hx y hy
    · have hres : messages_to_restore N l = l := by
        simp [messages_to_restore, hN, hlen]
      have hlen' : l.length ≤ N := Nat.le_of_not_lt hlen
      refine ⟨?_, ?_, ?_⟩
      · rw [hres]
        exact (Nat.min_eq_right hlen').symm
      · rw [hres]
      · intro hsort
        refine ⟨?_, ?_⟩
        · rw [hres]
          exact hsort
        · intro x hx
          rw [Nat.sub_eq_zero_of_le hlen'] at hx
          simp at hx

/-! ### C10: deduplication details of the per-channel message merge -/

/-- C10: in the per-channel merge step, a message with a missing or falsy id
is never added (every message occurs in the result exactly as often as in the
base list); base messages without an id contribute nothing to the
deduplication set; and since the deduplication set is built once per
incremental, any batch of incoming messages whose ids are all absent from the
base — including several messages sharing one id — is appended in full. -/
theorem merge_messages_dedup_behavior (existing incoming : List MessageRec) :
    (∀ m, truthyId m = false →
      (merge_messages existing incoming).count m = existing.count m) ∧
    dedupIds existing = dedupIds (existing.filter truthyId) ∧
    ((∀ m ∈ incoming, truthyId m = true ∧ m.id.getD "" ∉ dedupIds existing) →
      (merge_messages existing incoming).Perm (existing ++ incoming)) := by
  refine ⟨?_, ?_, ?_⟩
  · intro m hm
    have hperm : (merge_messages existing incoming).Perm
        (existing ++ new_messages_for existing incoming) :=
      List.perm_insertionSort _ _
    rw [hperm.count_eq, List.count_append]
    have hzero : (new_messages_for existing incoming).count m = 0 := by
      rw [List.count_eq_zero]
      intro hmem
      have hcond := List.of_mem_filter hmem
      simp [hm] at hcond
    omega
  · induction existing with
    | nil => rfl
    | cons m rest ih =>
      cases hid : m.id with
      | none =>
        simp only [dedupIds, List.filterMap_cons, hid, List.filter_cons,
          truthyId, truthyStr, Bool.false_eq_true, if_false]
        exact ih
      | some s =>
        by_cases hs : s = ""
        · simp only [dedupIds, List.filterMap_cons, hid, hs, List.filter_cons,
            truthyId, truthyStr, beq_self_eq_true, Bool.not_true,
            Bool.false_eq_true, if_false, if_true]
          exact ih
        · simp only [dedupIds, List.filterMap_cons, hid, hs, List.filter_cons,
            truthyId, truthyStr, if_false]
          have hbeq : (s == "") = false := by simpa using hs
          simp only [hbeq, Bool.not_false, if_true, List.filterMap_cons, hid, hs, if_false]
          exact congrArg (List.cons s) ih
  · intro hall
    have hperm : (merge_messages existing incoming).Perm
        (existing ++ new_messages_for existing incoming) :=
      List.perm_insertionSort _ _
    have hfil : new_messages_for existing incoming = incoming := by
      unfold new_messages_for
      rw [List.filter_eq_self]
      intro m hm
      have h1 := (hall m hm).1
      have h2 := (hall m hm).2
      simp only [h1, Bool.true_and, Bool.not_eq_true']
      simpa using h2
    rw [hfil] at hperm
    exact hperm

/-- Base list, incoming list with one falsy-id and one fresh message, and an
incoming pair sharing a single fresh id, for exercising the C10 theorem. -/
def c10base : List MessageRec :=
  [{ id := some "x", timestamp := some "t1", content := "base1" },
   { id := none, timestamp := some "t2", content := "base2" }]

def c10noid : MessageRec := { id := none, timestamp := some "t3", content := "dropped" }

def c10dup : List MessageRec :=
  [{ id := some "z", timestamp := some "t4", content := "dup1" },
   { id := some "z", timestamp := some "t5", content := "dup2" }]

theorem merge_messages_dedup_behavior_witness :
    (merge_messages c10base [c10noid]).count c10noid = c10base.count c10noid ∧
    (merge_messages c10base c10dup).Perm (c10base ++ c10dup) :=
  ⟨(merge_messages_dedup_behavior c10base [c10noid]).1 c10noid (by decide),
   (merge_messages_dedup_behavior c10base c10dup).2.2 (by decide)⟩

/-! ### C2: merging a one-element chain -/

/-- Concrete snapshot as the backup pipeline writes it: stats carry
`total_messages` and `media_files` but no `total_media_files` key. -/
def c2snap : Snapshot :=
  { server_id := "1"
    server_name := "srv"
    backup_info := none
    channels := [("c1", { name := some "general", ctype := some "text", messages := [{ id := some "m1", timestamp := some "t1", content := "hello" }] })]
    roles := [("r1", { name := some "Admin", position := some 1 })]
    emojis := []
    stickers := []
    stats := [("total_messages", 5), ("media_files", 2)] }

def c2entry : BackupEntry :=
  { path := "p0", server_id := "1", server_name := "srv",
    timestamp := "2024-01-01T00:00:00", is_incremental := false, data := c2snap }

/-- C2 counterexample: merging the one-element chain `[c2entry]` does NOT leave
the stats unchanged — the merge stamps a `total_media_files` entry (copied
from `media_files`) that the input snapshot does not have, so the result is
not equal to the base outside `backup_info`. -/
theorem merge_chain_singleton_stats_changed :
    (merge_chain "NOW" "STAMP" [c2entry]).map Snapshot.stats =
      .ok [("total_messages", 5), ("media_files", 2), ("total_media_files", 2)] ∧
    c2entry.data.stats = [("total_messages", 5), ("media_files", 2)] := by
  constructor
  · rfl
  · rfl

/-- C2 (amended): for a one-element chain `[S]` with `S` non-incremental, the
merge returns `S` with exactly two differences: `backup_info` is replaced by
the fresh merge stamp, and in `stats` the `total_messages` entry is re-set to
its existing value (`0` if absent) while a `total_media_files` entry is set to
the value of `media_files` (`0` if absent).  Channels (with their messages),
roles, emojis and stickers are unchanged. -/
theorem merge_chain_singleton (now nowStamp : String) (e : BackupEntry)
    (h : e.is_incremental = false) :
    merge_chain now nowStamp [e] = .ok { e.data with
      backup_info := some
        { version := "1.1.1", timestamp := now, incremental := false,
          backup_name := "MERGED_" ++ e.server_name ++ "_" ++ nowStamp,
          chain_info := some
            { full_backup := e.path, incremental_backups := [],
              total_backups_merged := 1,
              messages_added_from_incrementals := 0,
              media_added_from_incrementals := 0 } },
      stats :=
        updA (updA e.data.stats "total_messages"
            ((lookupA "total_messages" e.data.stats).getD 0))
          "total_media_files" ((lookupA "media_files" e.data.stats).getD 0) } := by
  have hmf : lookupA "media_files"
      (updA e.data.stats "total_messages" ((lookupA "total_messages" e.data.stats).getD 0)) =
      lookupA "media_files" e.data.stats :=
    lookupA_updA_ne _ _ _ _ (by decide)
  simp [merge_chain, h, hmf]

theorem merge_chain_singleton_witness :
    merge_chain "NOW" "STAMP" [c2entry] = .ok { c2entry.data with
      backup_info := some
        { version := "1.1.1", timestamp := "NOW", incremental := false,
          backup_name := "MERGED_" ++ c2entry.server_name ++ "_" ++ "STAMP",
          chain_info := some
            { full_backup := c2entry.path, incremental_backups := [],
              total_backups_merged := 1,
              messages_added_from_incrementals := 0,
              media_added_from_incrementals := 0 } },
      stats :=
        updA (updA c2entry.data.stats "total_messages"
            ((lookupA "total_messages" c2entry.data.stats).getD 0))
          "total_media_files" ((lookupA "media_files" c2entry.data.stats).getD 0) } :=
  merge_chain_singleton "NOW" "STAMP" c2entry (by decide)

/-! ### C6: emoji limit enforcement policy -/

theorem recreate_emojis_go_enforce (lim : Nat) (fx : String → Bool) (g : List String)
    (es : List (String × EmojiData)) (h : lim ≤ g.length) :
    (recreate_emojis_go false lim fx g es).1 = [] ∧
    ((recreate_emojis_go false lim fx g es).2 = true ↔
      ∃ p ∈ es, ∃ n, p.2.name = some n ∧ n ∉ g) := by
  induction es with
  | nil => simp [recreate_emojis_go]
  | cons p rest ih =>
    cases hn : p.2.name with
    | none =>
      simp only [recreate_emojis_go, hn]
      rw [ih.1, ih.2]
      constructor
      · rfl
      · constructor
        · intro ⟨q, hq, hex⟩
          exact ⟨q, List.mem_cons_of_mem _ hq, hex⟩
        · intro ⟨q, hq, n, hqn, hng⟩
          rcases List.mem_cons.mp hq with h1 | h1
          · subst h1
            rw [hn] at hqn
            cases hqn
          · exact ⟨q, h1, n, hqn, hng⟩
    | some n =>
      by_cases hc : g.contains n
      · have hmem : n ∈ g := by simpa using hc
        simp only [recreate_emojis_go, hn, hc, if_true]
        rw [ih.1, ih.2]
        constructor
        · rfl
        · constructor
          · intro ⟨q, hq, hex⟩
            exact ⟨q, List.mem_cons_of_mem _ hq, hex⟩
          · intro ⟨q, hq, n', hqn, hng⟩
            rcases List.mem_cons.mp hq with h1 | h1
            · subst h1
              rw [hn] at hqn
              have hnn : n' = n := (Option.some.inj hqn).symm
              subst hnn
              exact absurd hmem hng
            · exact ⟨q, h1, n', hqn, hng⟩
      · have hmem : n ∉ g := by simpa using hc
        have hdec : decide (lim ≤ g.length) = true := by simpa using h
        simp only [recreate_emojis_go, hn, hc, if_false, Bool.not_false, Bool.true_and, hdec,
          if_true]
        constructor
        · rfl
        · constructor
          · intro _
            exact ⟨p, List.mem_cons_self _ _, n, hn, hmem⟩
          · intro _
            rfl

theorem recreate_emojis_go_advisory (lim lim' : Nat) (fx : String → Bool) :
    ∀ (es : List (String × EmojiData)) (g : List String),
      recreate_emojis_go true lim fx g es = recreate_emojis_go true lim' fx g es := by
  intro es
  induction es with
  | nil => intro g; rfl
  | cons p rest ih =>
    intro g
    cases hn : p.2.name with
    | none => simp only [recreate_emojis_go, hn, ih]
    | some n =>
      by_cases hc : g.contains n
      · simp only [recreate_emojis_go, hn, hc, if_true, ih]
      · cases hp : p.2.local_path with
        | none => simp only [recreate_emojis_go, hn, hc, if_false, Bool.not_true,
            Bool.false_and, hp, ih]
        | some pa =>
          by_cases hx : (pa == "" || !(fx pa)) = true
          · simp only [recreate_emojis_go, hn, hc, if_false, Bool.not_true,
              Bool.false_and, hp, hx, if_true, ih]
          · simp only [recreate_emojis_go, hn, hc, if_false, Bool.not_true,
              Bool.false_and, hp, hx, if_false, ih]

/-- C6: when the target already holds at least the platform emoji limit,
enforcement (ignore flag false) creates no further emojis and fires the
"limit reached" warning exactly when some remaining backup emoji is new;
the advisory policy (ignore flag true) ignores the limit entirely: its
behaviour is the same for every limit value, so creation proceeds past it. -/
theorem recreate_emojis_limit_policy (lim lim' : Nat) (fx : String → Bool)
    (g : List String) (es : List (String × EmojiData)) (h : lim ≤ g.length) :
    ((recreate_emojis false lim fx g es).1 = [] ∧
      ((recreate_emojis false lim fx g es).2 = true ↔
        ∃ p ∈ es, ∃ n, p.2.name = some n ∧ n ∉ g)) ∧
    recreate_emojis true lim fx g es = recreate_emojis true lim' fx g es :=
  ⟨recreate_emojis_go_enforce lim fx g es h,
   recreate_emojis_go_advisory lim lim' fx es g⟩

/-- Scenario of the spec: the target already holds its full emoji allowance
(limit 2, emojis a and b) and the backup still has a new emoji c with a
cached file: enforcement creates nothing and warns, advisory creates c. -/
theorem recreate_emojis_limit_policy_witness :
    (recreate_emojis false 2 (fun _ => true) ["a", "b"]
        [("1", { name := some "c", local_path := some "x" })]).1 = [] ∧
    (recreate_emojis false 2 (fun _ => true) ["a", "b"]
        [("1", { name := some "c", local_path := some "x" })]).2 = true ∧
    (recreate_emojis true 2 (fun _ => true) ["a", "b"]
        [("1", { name := some "c", local_path := some "x" })]).1 = ["c"] := by
  have h := recreate_emojis_limit_policy 2 3 (fun _ => true) ["a", "b"]
    [("1", { name := some "c", local_path := some "x" })] (by decide)
  refine ⟨h.1.1, h.1.2.mpr ?_, by decide⟩
  exact ⟨_, List.mem_cons_self _ _, "c", rfl, by decide⟩

/-- Ascending three-message archive for exercising the C5 theorem. -/
def c5msgs : List MessageRec :=
  [{ id := some "1", timestamp := some "t1", content := "a" },
   { id := some "2", timestamp := some "t2", content := "b" },
   { id := some "3", timestamp := some "t3", content := "c" }]

theorem messages_to_restore_spec_witness :
    (messages_to_restore 2 c5msgs).length = min 2 c5msgs.length ∧
    messages_to_restore 2 c5msgs <:+ c5msgs ∧
    (messages_to_restore 2 c5msgs).Pairwise msgLe := by
  have h := (messages_to_restore_spec 2 c5msgs).2 (by decide)
  exact ⟨h.1, h.2.1, (h.2.2 (by decide)).1⟩

/-! ### C8: the 2000-character message ceiling -/

theorem length_pyTake (s : String) (n : Nat) : (pyTake s n).length ≤ n := by
  show (s.data.take n).length ≤ n
  exact List.length_take_le _ _

theorem length_truncate2000 (s : String) : (truncate2000 s).length ≤ 2000 := by
  unfold truncate2000
  by_cases h : s.length > 2000
  · rw [if_pos h, String.length_append]
    have h1 := length_pyTake s 1997
    have h2 : ("..." : String).length = 3 := rfl
    omega
  · rw [if_neg h]
    omega

/-- C8: every message sent during replay — via the impersonation webhook or
via the author-prefixed fallback — has content of length at most the
2000-character platform ceiling, whatever reply/forward annotation, original
text, original-time annotation and attachment placeholder notes were
composed into it. -/
theorem restore_single_message_length (fileExists : String → Bool) (fileSize : String → Nat)
    (hw itc rm : Bool) (msg : RMessage) (s : String)
    (h : restore_single_message fileExists fileSize hw itc rm msg = some s) :
    s.length ≤ 2000 := by
  unfold restore_single_message at h
  dsimp only at h
  repeat' split at h
  all_goals cases h
  all_goals exact length_truncate2000 _

/-- Long concrete message (overlong text, missing attachment note, reply
annotation) exercising the C8 theorem on both send paths. -/
def c8msg : RMessage :=
  { content := some ⟨List.replicate 2500 'x'⟩
    username := some "alice"
    avatar_url := none
    attachments := [{ filename := some "pic.png", local_path := none }]
    embeds := 0
    timestamp := some "2024-01-01T10:00:00Z"
    reference := some { channel_name := some "general" }
    is_cross_server_forward := false
    cross_server_metadata := none }

theorem restore_single_message_length_witness :
    ((restore_single_message (fun _ => false) (fun _ => 0) true true true c8msg).getD
      "").length ≤ 2000 := by
  cases hres : restore_single_message (fun _ => false) (fun _ => 0) true true true c8msg with
  | none => simp
  | some s =>
    simpa using restore_single_message_length (fun _ => false) (fun _ => 0) true true true
      c8msg s hres

/-! ### C3: merging `[Full, Inc1, Inc2]` -/

theorem dedupIds_perm {l1 l2 : List MessageRec} (h : l1.Perm l2) :
    (dedupIds l1).Perm (dedupIds l2) := List.Perm.filterMap _ h

theorem dedupIds_append (l1 l2 : List MessageRec) :
    dedupIds (l1 ++ l2) = dedupIds l1 ++ dedupIds l2 := List.filterMap_append _ _ _

/-- C3: for a chain `[Full, Inc1, Inc2]` where `Inc1` adds the fresh message
`M1` to channel `cid` and `Inc2` adds the fresh message `M2` and repeats `M1`,
the merged channel holds exactly the original messages plus `M1` and `M2`
(as a permutation witnessing set equality), with no duplicate message ids,
sorted ascending by timestamp. -/
theorem merge_chain_full_inc_inc (now nowStamp : String) (f i1 i2 : BackupEntry)
    (cid : String) (ch0 ch1 ch2 : ChannelData) (M1 M2 : MessageRec) (a b : String)
    (hf : f.is_incremental = false) (h1 : i1.is_incremental = true)
    (h2 : i2.is_incremental = true)
    (hch1 : i1.data.channels = [(cid, ch1)]) (hm1 : ch1.messages = [M1])
    (hch2 : i2.data.channels = [(cid, ch2)]) (hm2 : ch2.messages = [M1, M2])
    (hbase : lookupA cid f.data.channels = some ch0)
    (hid1 : M1.id = some a) (ha : a ≠ "") (hid2 : M2.id = some b) (hb : b ≠ "")
    (hab : a ≠ b) (ha0 : a ∉ dedupIds ch0.messages) (hb0 : b ∉ dedupIds ch0.messages)
    (hnd : (dedupIds ch0.messages).Nodup) :
    ∃ s ch, merge_chain now nowStamp [f, i1, i2] = .ok s ∧
      lookupA cid s.channels = some ch ∧
      ch.messages.Perm (ch0.messages ++ [M1, M2]) ∧
      (dedupIds ch.messages).Nodup ∧
      ch.messages.Pairwise msgLe := by
  have htr1 : truthyId M1 = true := by simpa [truthyId, truthyStr, hid1] using ha
  have htr2 : truthyId M2 = true := by simpa [truthyId, truthyStr, hid2] using hb
  have hcontain_a : (dedupIds ch0.messages).contains a = false := by simpa using ha0
  have hA : new_messages_for ch0.messages [M1] = [M1] := by
    simp [new_messages_for, htr1, hid1, ha0]
  have hperm1 : (merge_messages ch0.messages [M1]).Perm (ch0.messages ++ [M1]) := by
    unfold merge_messages
    rw [hA]
    exact List.perm_insertionSort _ _
  have hdM1 : dedupIds [M1] = [a] := by simp [dedupIds, hid1, ha]
  have hd1 : (dedupIds (merge_messages ch0.messages [M1])).Perm (dedupIds ch0.messages ++ [a]) := by
    have h' := dedupIds_perm hperm1
    rwa [dedupIds_append, hdM1] at h'
  have ha_mem : a ∈ dedupIds (merge_messages ch0.messages [M1]) :=
    hd1.mem_iff.mpr (by simp)
  have hb_not : b ∉ dedupIds (merge_messages ch0.messages [M1]) := by
    intro hb'
    have hmem := hd1.mem_iff.mp hb'
    rcases List.mem_append.mp hmem with hmem | hmem
    · exact hb0 hmem
    · simp at hmem
      exact hab hmem.symm
  have hcontain_a1 : (dedupIds (merge_messages ch0.messages [M1])).contains a = true := by
    simpa using ha_mem
  have hcontain_b1 : (dedupIds (merge_messages ch0.messages [M1])).contains b = false := by
    simpa using hb_not
  have hD : new_messages_for (merge_messages ch0.messages [M1]) [M1, M2] = [M2] := by
    simp [new_messages_for, htr1, htr2, hid1, hid2, ha_mem, hb_not]
  have hperm2 : (merge_messages (merge_messages ch0.messages [M1]) [M1, M2]).Perm
      (merge_messages ch0.messages [M1] ++ [M2]) := by
    generalize hL : merge_messages ch0.messages [M1] = L at hD ⊢
    unfold merge_messages
    rw [hD]
    exact List.perm_insertionSort _ _
  have hpermAll : (merge_messages (merge_messages ch0.messages [M1]) [M1, M2]).Perm
      (ch0.messages ++ [M1, M2]) := by
    refine hperm2.trans ?_
    have h' := hperm1.append_right [M2]
    refine h'.trans ?_
    rw [List.append_assoc]
    rfl
  have hmc1 : merge_channels f.data.channels i1.data.channels =
      (updA f.data.channels cid { ch0 with messages := merge_messages ch0.messages [M1] },
       (new_messages_for ch0.messages [M1]).length) := by
    rw [hch1]
    simp [merge_channels, hbase, hm1]
  have hlook1 : lookupA cid
      (updA f.data.channels cid { ch0 with messages := merge_messages ch0.messages [M1] }) =
      some { ch0 with messages := merge_messages ch0.messages [M1] } :=
    lookupA_updA_self _ _ _
  have hmc2 : merge_channels
      (updA f.data.channels cid { ch0 with messages := merge_messages ch0.messages [M1] })
      i2.data.channels =
      (updA (updA f.data.channels cid { ch0 with messages := merge_messages ch0.messages [M1] })
        cid { ch0 with messages := merge_messages (merge_messages ch0.messages [M1]) [M1, M2] },
       (new_messages_for (merge_messages ch0.messages [M1]) [M1, M2]).length) := by
    rw [hch2]
    simp [merge_channels, hlook1, hm2]
  have hchannels : (merge_chain now nowStamp [f, i1, i2]).map Snapshot.channels =
      .ok (updA (updA f.data.channels cid
          { ch0 with messages := merge_messages ch0.messages [M1] })
        cid { ch0 with messages := merge_messages (merge_messages ch0.messages [M1]) [M1, M2] }) := by
    simp [merge_chain, hf, h1, h2, hmc1, hmc2, Except.map]
  cases hmerge : merge_chain now nowStamp [f, i1, i2] with
  | error e =>
    rw [hmerge] at hchannels
    cases hchannels
  | ok s =>
    rw [hmerge] at hchannels
    have hsch := Except.ok.inj hchannels
    refine ⟨s, { ch0 with messages := merge_messages (merge_messages ch0.messages [M1]) [M1, M2] },
      rfl, ?_, ?_, ?_, ?_⟩
    · rw [hsch]
      exact lookupA_updA_self _ _ _
    · exact hpermAll
    · have hdAll := dedupIds_perm hpermAll
      have hdM12 : dedupIds [M1, M2] = [a, b] := by simp [dedupIds, hid1, hid2, ha, hb]
      rw [dedupIds_append, hdM12] at hdAll
      refine hdAll.symm.nodup ?_
      rw [List.nodup_append]
      refine ⟨hnd, by simp [hab], ?_⟩
      intro x hx
      simp only [List.mem_cons, List.mem_singleton, List.not_mem_nil]
      rintro (rfl | rfl | h')
      · exact ha0 hx
      · exact hb0 hx
      · exact h'.elim
    · exact List.sorted_insertionSort msgLe _

/-- Concrete chain for exercising the C3 theorem. -/
def c3M0 : MessageRec := { id := some "m0", timestamp := some "t0", content := "orig" }

def c3M1 : MessageRec := { id := some "m1", timestamp := some "t1", content := "one" }

def c3M2 : MessageRec := { id := some "m2", timestamp := some "t2", content := "two" }

def c3full : BackupEntry :=
  { path := "f", server_id := "1", server_name := "srv", timestamp := "T0",
    is_incremental := false,
    data := { server_id := "1", server_name := "srv", backup_info := none, channels := [("c", { name := some "general", ctype := some "text", messages := [c3M0] })], roles := [], emojis := [], stickers := [], stats := [] } }

def c3inc1 : BackupEntry :=
  { path := "i1", server_id := "1", server_name := "srv", timestamp := "T1",
    is_incremental := true,
    data := { server_id := "1", server_name := "srv", backup_info := none, channels := [("c", { name := some "general", ctype := some "text", messages := [c3M1] })], roles := [], emojis := [], stickers := [], stats := [] } }

def c3inc2 : BackupEntry :=
  { path := "i2", server_id := "1", server_name := "srv", timestamp := "T2",
    is_incremental := true,
    data := { server_id := "1", server_name := "srv", backup_info := none, channels := [("c", { name := some "general", ctype := some "text", messages := [c3M1, c3M2] })], roles := [], emojis := [], stickers := [], stats := [] } }

theorem merge_chain_full_inc_inc_witness :
    ∃ s ch, merge_chain "NOW" "STAMP" [c3full, c3inc1, c3inc2] = .ok s ∧
      lookupA "c" s.channels = some ch ∧
      ch.messages.Perm ([c3M0] ++ [c3M1, c3M2]) ∧
      (dedupIds ch.messages).Nodup ∧
      ch.messages.Pairwise msgLe :=
  merge_chain_full_inc_inc "NOW" "STAMP" c3full c3inc1 c3inc2 "c"
    { name := some "general", ctype := some "text", messages := [c3M0] }
    { name := some "general", ctype := some "text", messages := [c3M1] }
    { name := some "general", ctype := some "text", messages := [c3M1, c3M2] }
    c3M1 c3M2 "m1" "m2"
    (by decide) (by decide) (by decide) (by decide) (by decide) (by decide) (by decide)
    (by decide) (by decide) (by decide) (by decide) (by decide) (by decide) (by decide)
    (by decide) (by decide)

/-! ### C7: orphan incrementals are excluded from every chain -/

/-- The backup `x` appears in no chain of the map `m`. -/
def chainsAvoid (x : BackupEntry) (m : List (String × List BackupEntry)) : Prop :=
  ∀ p ∈ m, x ∉ p.2

theorem chainsAvoid_updA {x : BackupEntry} {m : List (String × List BackupEntry)}
    {k : String} {v : List BackupEntry} (hm : chainsAvoid x m) (hv : x ∉ v) :
    chainsAvoid x (updA m k v) := by
  intro p hp
  rcases mem_updA hp with h | h
  · rw [h]
    exact hv
  · exact hm p h

theorem groupFold_mem (P : BackupEntry → Prop) :
    ∀ (bs : List BackupEntry) (m0 : List (String × List BackupEntry)),
      (∀ p ∈ m0, ∀ x ∈ p.2, x.server_id = p.1 ∧ P x) →
      (∀ x ∈ bs, P x) →
      ∀ p ∈ bs.foldl (fun m b => updA m b.server_id ((lookupA b.server_id m).getD [] ++ [b])) m0,
        ∀ x ∈ p.2, x.server_id = p.1 ∧ P x := by
  intro bs
  induction bs with
  | nil =>
    intro m0 h0 _ p hp
    exact h0 p hp
  | cons b rest ih =>
    intro m0 h0 hbs
    simp only [List.foldl_cons]
    apply ih
    · intro p hp x hx
      rcases mem_updA hp with hpe | hpe
      · subst hpe
        rcases List.mem_append.mp hx with hx1 | hx1
        · cases hl : lookupA b.server_id m0 with
          | none =>
            rw [hl] at hx1
            simp at hx1
          | some o =>
            rw [hl] at hx1
            exact h0 _ (mem_of_lookupA hl) x hx1
        · have hxb : x = b := by simpa using hx1
          subst hxb
          exact ⟨rfl, hbs x (List.mem_cons_self _ _)⟩
      · exact h0 p hpe x hx
    · intro x hx
      exact hbs x (List.mem_cons_of_mem _ hx)

theorem groupByServer_mem {bs : List BackupEntry} {p : String × List BackupEntry}
    (h : p ∈ groupByServer bs) : ∀ x ∈ p.2, x.server_id = p.1 ∧ x ∈ bs := by
  have := groupFold_mem (· ∈ bs) bs [] (by intro q hq; cases hq) (fun x hx => hx)
  exact this p h


theorem buildStep_full_flush {st : BuildState} {b cf : BackupEntry}
    (hb : b.is_incremental = false) (hcur : st.current_full = some cf)
    (hch : st.chain ≠ []) :
    buildStep st b =
      { chains := updA st.chains (chainKey cf) st.chain, current_full := some b,
        chain := [b] } := by
  unfold buildStep
  rw [hcur]
  simp [hb, hch]

theorem buildStep_full_noflush {st : BuildState} {b cf : BackupEntry}
    (hb : b.is_incremental = false) (hcur : st.current_full = some cf)
    (hch : ¬ st.chain ≠ []) :
    buildStep st b = { chains := st.chains, current_full := some b, chain := [b] } := by
  unfold buildStep
  rw [hcur]
  simp [hb, hch]

theorem buildStep_full_open {st : BuildState} {b : BackupEntry}
    (hb : b.is_incremental = false) (hcur : st.current_full = none) :
    buildStep st b = { chains := st.chains, current_full := some b, chain := [b] } := by
  unfold buildStep
  rw [hcur]
  simp [hb]

theorem buildStep_inc_append {st : BuildState} {b cf : BackupEntry}
    (hb : b.is_incremental = true) (hcur : st.current_full = some cf) :
    buildStep st b = { st with chain := st.chain ++ [b] } := by
  unfold buildStep
  rw [hcur]
  simp [hb]

theorem buildStep_inc_drop {st : BuildState} {b : BackupEntry}
    (hb : b.is_incremental = true) (hcur : st.current_full = none) :
    buildStep st b = st := by
  unfold buildStep
  rw [hcur]
  simp [hb]

theorem buildFold_avoid (x : BackupEntry) :
    ∀ (l : List BackupEntry) (st : BuildState),
      chainsAvoid x st.chains → x ∉ st.chain → x ∉ l →
      chainsAvoid x (l.foldl buildStep st).chains ∧ x ∉ (l.foldl buildStep st).chain := by
  intro l
  induction l with
  | nil =>
    intro st h1 h2 _
    exact ⟨h1, h2⟩
  | cons b rest ih =>
    intro st h1 h2 h3
    have hxb : x ≠ b := fun he => h3 (he ▸ List.mem_cons_self _ _)
    have h3' : x ∉ rest := fun hx => h3 (List.mem_cons_of_mem _ hx)
    rw [List.foldl_cons]
    have hnext : chainsAvoid x (buildStep st b).chains ∧ x ∉ (buildStep st b).chain := by
      by_cases hb : b.is_incremental = false
      · cases hcur : st.current_full with
        | some cf =>
          by_cases hch : st.chain ≠ []
          · rw [buildStep_full_flush hb hcur hch]
            exact ⟨chainsAvoid_updA h1 h2, by simpa using hxb⟩
          · rw [buildStep_full_noflush hb hcur hch]
            exact ⟨h1, by simpa using hxb⟩
        | none =>
          rw [buildStep_full_open hb hcur]
          exact ⟨h1, by simpa using hxb⟩
      · have hb' : b.is_incremental = true := by simpa using hb
        cases hcur : st.current_full with
        | some cf =>
          rw [buildStep_inc_append hb' hcur]
          refine ⟨h1, ?_⟩
          simp only [List.mem_append, List.mem_singleton]
          rintro (h' | h')
          · exact h2 h'
          · exact hxb h'
        | none =>
          rw [buildStep_inc_drop hb' hcur]
          exact ⟨h1, h2⟩
    exact ih (buildStep st b) hnext.1 hnext.2 h3'

theorem buildChains_avoid_foreign (x : BackupEntry) (chains0 : List (String × List BackupEntry))
    (l : List BackupEntry) (h0 : chainsAvoid x chains0) (hl : x ∉ l) :
    chainsAvoid x (buildChains chains0 l) := by
  unfold buildChains
  have h := buildFold_avoid x l { chains := chains0, current_full := none, chain := [] } h0
    (by simp) hl
  cases hcf : (l.foldl buildStep { chains := chains0, current_full := none, chain := [] }).current_full with
  | some cf =>
    by_cases hch : (l.foldl buildStep { chains := chains0, current_full := none, chain := [] }).chain ≠ []
    · simp only [hcf, if_pos hch]
      exact chainsAvoid_updA h.1 h.2
    · simp only [hcf, if_neg hch]
      exact h.1
  | none =>
    simp only [hcf]
    exact h.1

theorem buildFold_avoid_sorted (x : BackupEntry) (hxinc : x.is_incremental = true) :
    ∀ (l : List BackupEntry) (st : BuildState),
      List.Pairwise entryLe l →
      (∀ y ∈ l, y.is_incremental = false → strLe y.timestamp x.timestamp = false) →
      chainsAvoid x st.chains → x ∉ st.chain →
      (st.current_full = none ∨ x ∉ l) →
      chainsAvoid x (l.foldl buildStep st).chains ∧ x ∉ (l.foldl buildStep st).chain := by
  intro l
  induction l with
  | nil =>
    intro st _ _ h1 h2 _
    exact ⟨h1, h2⟩
  | cons b rest ih =>
    intro st hsort hts h1 h2 hcf
    have hsort' := List.pairwise_cons.mp hsort
    rw [List.foldl_cons]
    by_cases hb : b.is_incremental = false
    · have hxb : x ≠ b := by
        intro he
        rw [← he, hxinc] at hb
        cases hb
      have hxrest : x ∉ rest := by
        intro hx
        have hle := hsort'.1 x hx
        have hno := hts b (List.mem_cons_self _ _) hb
        unfold entryLe at hle
        rw [hno] at hle
        cases hle
      have hnext : chainsAvoid x (buildStep st b).chains ∧ x ∉ (buildStep st b).chain := by
        cases hcur : st.current_full with
        | some cf =>
          by_cases hch : st.chain ≠ []
          · rw [buildStep_full_flush hb hcur hch]
            exact ⟨chainsAvoid_updA h1 h2, by simpa using hxb⟩
          · rw [buildStep_full_noflush hb hcur hch]
            exact ⟨h1, by simpa using hxb⟩
        | none =>
          rw [buildStep_full_open hb hcur]
          exact ⟨h1, by simpa using hxb⟩
      exact ih (buildStep st b) hsort'.2 (fun y hy => hts y (List.mem_cons_of_mem _ hy))
        hnext.1 hnext.2 (Or.inr hxrest)
    · have hb' : b.is_incremental = true := by simpa using hb
      cases hcur : st.current_full with
      | some cf =>
        have hxbr : x ∉ b :: rest := by
          rcases hcf with hcf | hcf
          · rw [hcur] at hcf
            cases hcf
          · exact hcf
        have hxb : x ≠ b := fun he => hxbr (he ▸ List.mem_cons_self _ _)
        have hxrest : x ∉ rest := fun hx => hxbr (List.mem_cons_of_mem _ hx)
        rw [buildStep_inc_append hb' hcur]
        apply ih _ hsort'.2 (fun y hy => hts y (List.mem_cons_of_mem _ hy))
        · exact h1
        · simp only [List.mem_append, List.mem_singleton]
          rintro (h' | h')
          · exact h2 h'
          · exact hxb h'
        · exact Or.inr hxrest
      | none =>
        rw [buildStep_inc_drop hb' hcur]
        exact ih st hsort'.2 (fun y hy => hts y (List.mem_cons_of_mem _ hy)) h1 h2 (Or.inl hcur)

theorem buildChains_avoid_sorted (x : BackupEntry) (hxinc : x.is_incremental = true)
    (chains0 : List (String × List BackupEntry)) (l : List BackupEntry)
    (hsort : List.Pairwise entryLe l)
    (hts : ∀ y ∈ l, y.is_incremental = false → strLe y.timestamp x.timestamp = false)
    (h0 : chainsAvoid x chains0) :
    chainsAvoid x (buildChains chains0 l) := by
  unfold buildChains
  have h := buildFold_avoid_sorted x hxinc l
    { chains := chains0, current_full := none, chain := [] } hsort hts h0 (by simp) (Or.inl rfl)
  cases hcf : (l.foldl buildStep { chains := chains0, current_full := none, chain := [] }).current_full with
  | some cf =>
    by_cases hch : (l.foldl buildStep { chains := chains0, current_full := none, chain := [] }).chain ≠ []
    · simp only [hcf, if_pos hch]
      exact chainsAvoid_updA h.1 h.2
    · simp only [hcf, if_neg hch]
      exact h.1
  | none =>
    simp only [hcf]
    exact h.1

/-- C7: an incremental snapshot all of whose same-server non-incremental
bases lie strictly later in timestamp order — i.e. an incremental with no
earlier base for its server id — appears in no chain produced by discovery. -/
theorem discover_chains_orphan_excluded (bs : List BackupEntry) (x : BackupEntry)
    (hxinc : x.is_incremental = true)
    (hts : ∀ f ∈ bs, f.server_id = x.server_id → f.is_incremental = false →
      strLe f.timestamp x.timestamp = false) :
    ∀ p ∈ discover_chains bs, x ∉ p.2 := by
  unfold discover_chains
  have main : ∀ (gs : List (String × List BackupEntry)),
      (∀ q ∈ gs, ∀ y ∈ q.2, y.server_id = q.1 ∧ y ∈ bs) →
      ∀ acc, chainsAvoid x acc →
      chainsAvoid x
        (gs.foldl (fun acc g => buildChains acc (List.insertionSort entryLe g.2)) acc) := by
    intro gs
    induction gs with
    | nil =>
      intro _ acc h
      exact h
    | cons g rest ih =>
      intro hq acc hacc
      rw [List.foldl_cons]
      apply ih (fun q hq' => hq q (List.mem_cons_of_mem _ hq'))
      by_cases hsid : g.1 = x.server_id
      · apply buildChains_avoid_sorted x hxinc _ _ (List.sorted_insertionSort entryLe g.2)
          _ hacc
        intro y hy hyfull
        have hyg : y ∈ g.2 := (List.perm_insertionSort entryLe g.2).mem_iff.mp hy
        have hprop := hq g (List.mem_cons_self _ _) y hyg
        exact hts y hprop.2 (hprop.1.trans hsid) hyfull
      · apply buildChains_avoid_foreign x _ _ hacc
        intro hx
        have hxg : x ∈ g.2 := (List.perm_insertionSort entryLe g.2).mem_iff.mp hx
        exact hsid (hq g (List.mem_cons_self _ _) x hxg).1.symm
  exact main (groupByServer bs) (fun q hq => groupByServer_mem hq) []
    (by intro p hp; cases hp)

/-- An orphan incremental (timestamp before any full backup of its server)
and a later full backup, for exercising the C7 theorem. -/
def c7orphan : BackupEntry :=
  { path := "o", server_id := "1", server_name := "srv", timestamp := "T0",
    is_incremental := true,
    data := { server_id := "1", server_name := "srv", backup_info := none, channels := [], roles := [], emojis := [], stickers := [], stats := [] } }

def c7full : BackupEntry :=
  { path := "f", server_id := "1", server_name := "srv", timestamp := "T5",
    is_incremental := false,
    data := { server_id := "1", server_name := "srv", backup_info := none, channels := [], roles := [], emojis := [], stickers := [], stats := [] } }

theorem discover_chains_orphan_excluded_witness : c7orphan ∉ [c7full] :=
  discover_chains_orphan_excluded [c7orphan, c7full] c7orphan (by decide) (by decide)
    ("srv_T5", [c7full]) (by decide)

/-! ### C9: chain keys and key collisions -/

/-- Every saved chain's key is derived solely from its base entry: the base's
server name plus the first 19 characters of the base's timestamp. -/
def chainsKeyed (m : List (String × List BackupEntry)) : Prop :=
  ∀ p ∈ m, ∃ base, p.2.head? = some base ∧ base.is_incremental = false ∧ p.1 = chainKey base

def stateKeyed (st : BuildState) : Prop :=
  chainsKeyed st.chains ∧
  ∀ cf, st.current_full = some cf → st.chain.head? = some cf ∧ cf.is_incremental = false

theorem chainsKeyed_updA {m : List (String × List BackupEntry)} {cf : BackupEntry}
    {v : List BackupEntry} (hm : chainsKeyed m) (hv : v.head? = some cf)
    (hcf : cf.is_incremental = false) : chainsKeyed (updA m (chainKey cf) v) := by
  intro p hp
  rcases mem_updA hp with h | h
  · rw [h]
    exact ⟨cf, hv, hcf, rfl⟩
  · exact hm p h

theorem buildFold_keyed :
    ∀ (l : List BackupEntry) (st : BuildState), stateKeyed st →
      stateKeyed (l.foldl buildStep st) := by
  intro l
  induction l with
  | nil =>
    intro st h
    exact h
  | cons b rest ih =>
    intro st h
    rw [List.foldl_cons]
    apply ih
    by_cases hb : b.is_incremental = false
    · cases hcur : st.current_full with
      | some cf =>
        by_cases hch : st.chain ≠ []
        · rw [buildStep_full_flush hb hcur hch]
          have hc := h.2 cf hcur
          exact ⟨chainsKeyed_updA h.1 hc.1 hc.2, by
            intro cf' hcf'
            simp only at hcf'
            cases hcf'
            exact ⟨rfl, hb⟩⟩
        · rw [buildStep_full_noflush hb hcur hch]
          exact ⟨h.1, by
            intro cf' hcf'
            simp only at hcf'
            cases hcf'
            exact ⟨rfl, hb⟩⟩
      | none =>
        rw [buildStep_full_open hb hcur]
        exact ⟨h.1, by
          intro cf' hcf'
          simp only at hcf'
          cases hcf'
          exact ⟨rfl, hb⟩⟩
    · have hb' : b.is_incremental = true := by simpa using hb
      cases hcur : st.current_full with
      | some cf =>
        rw [buildStep_inc_append hb' hcur]
        refine ⟨h.1, ?_⟩
        intro cf' hcf'
        simp only at hcf'
        have hc := h.2 cf' hcf'
        refine ⟨?_, hc.2⟩
        cases hchain : st.chain with
        | nil =>
          rw [hchain] at hc
          cases hc.1
        | cons y ys =>
          rw [hchain] at hc
          simp only [List.cons_append, List.head?_cons] at hc ⊢
          exact hc.1
      | none =>
        rw [buildStep_inc_drop hb' hcur]
        exact h

theorem buildChains_keyed (chains0 : List (String × List BackupEntry))
    (l : List BackupEntry) (h0 : chainsKeyed chains0) :
    chainsKeyed (buildChains chains0 l) := by
  unfold buildChains
  have h := buildFold_keyed l { chains := chains0, current_full := none, chain := [] }
    ⟨h0, by intro cf hcf; cases hcf⟩
  cases hcf : (l.foldl buildStep { chains := chains0, current_full := none, chain := [] }).current_full with
  | some cf =>
    by_cases hch : (l.foldl buildStep { chains := chains0, current_full := none, chain := [] }).chain ≠ []
    · simp only [hcf, if_pos hch]
      have hc := h.2 cf hcf
      exact chainsKeyed_updA h.1 hc.1 hc.2
    · simp only [hcf, if_neg hch]
      exact h.1
  | none =>
    simp only [hcf]
    exact h.1

/-- Keys stay duplicate-free: the chain map only ever grows through
insert-or-overwrite. -/
theorem buildFold_nodup_keys :
    ∀ (l : List BackupEntry) (st : BuildState),
      (st.chains.map Prod.fst).Nodup →
      ((l.foldl buildStep st).chains.map Prod.fst).Nodup := by
  intro l
  induction l with
  | nil =>
    intro st h
    exact h
  | cons b rest ih =>
    intro st h
    rw [List.foldl_cons]
    apply ih
    by_cases hb : b.is_incremental = false
    · cases hcur : st.current_full with
      | some cf =>
        by_cases hch : st.chain ≠ []
        · rw [buildStep_full_flush hb hcur hch]
          exact nodup_keys_updA _ _ h
        · rw [buildStep_full_noflush hb hcur hch]
          exact h
      | none =>
        rw [buildStep_full_open hb hcur]
        exact h
    · have hb' : b.is_incremental = true := by simpa using hb
      cases hcur : st.current_full with
      | some cf =>
        rw [buildStep_inc_append hb' hcur]
        exact h
      | none =>
        rw [buildStep_inc_drop hb' hcur]
        exact h

theorem buildChains_nodup_keys (chains0 : List (String × List BackupEntry))
    (l : List BackupEntry) (h0 : (chains0.map Prod.fst).Nodup) :
    ((buildChains chains0 l).map Prod.fst).Nodup := by
  unfold buildChains
  have h := buildFold_nodup_keys l { chains := chains0, current_full := none, chain := [] } h0
  cases hcf : (l.foldl buildStep { chains := chains0, current_full := none, chain := [] }).current_full with
  | some cf =>
    by_cases hch : (l.foldl buildStep { chains := chains0, current_full := none, chain := [] }).chain ≠ []
    · simp only [hcf, if_pos hch]
      exact nodup_keys_updA _ _ h
    · simp only [hcf, if_neg hch]
      exact h
  | none =>
    simp only [hcf]
    exact h

/-- Colliding pair: two full backups of different servers sharing the server
name and the first 19 timestamp characters, hence the same chain key. -/
def c9a : BackupEntry :=
  { path := "pa", server_id := "1", server_name := "srv",
    timestamp := "2024-01-01T00:00:00.100", is_incremental := false,
    data := { server_id := "1", server_name := "srv", backup_info := none, channels := [], roles := [], emojis := [], stickers := [], stats := [] } }

def c9b : BackupEntry :=
  { path := "pb", server_id := "2", server_name := "srv",
    timestamp := "2024-01-01T00:00:00.200", is_incremental := false,
    data := { server_id := "2", server_name := "srv", backup_info := none, channels := [], roles := [], emojis := [], stickers := [], stats := [] } }

/-- C9: chain keys are derived solely from the base's server name plus the
first 19 characters of its timestamp; the chain map never holds two entries
with one key; and on the colliding pair `c9a`/`c9b` (different server ids,
same name and timestamp prefix) discovery retains only the last chain built —
`c9a`'s chain is absent from the result. -/
theorem discover_chains_key_from_base (bs : List BackupEntry) :
    (∀ p ∈ discover_chains bs, ∃ base, p.2.head? = some base ∧
      base.is_incremental = false ∧
      p.1 = base.server_name ++ "_" ++ pyTake base.timestamp 19) ∧
    ((discover_chains bs).map Prod.fst).Nodup ∧
    (c9a.server_id ≠ c9b.server_id ∧ chainKey c9a = chainKey c9b ∧
      discover_chains [c9a, c9b] = [("srv_2024-01-01T00:00:00", [c9b])]) := by
  refine ⟨?_, ?_, by decide, by decide, by decide⟩
  · unfold discover_chains
    have main : ∀ (gs : List (String × List BackupEntry)) (acc : List (String × List BackupEntry)),
        chainsKeyed acc →
        chainsKeyed (gs.foldl (fun acc g => buildChains acc (List.insertionSort entryLe g.2)) acc) := by
      intro gs
      induction gs with
      | nil =>
        intro acc h
        exact h
      | cons g rest ih =>
        intro acc hacc
        rw [List.foldl_cons]
        exact ih _ (buildChains_keyed _ _ hacc)
    exact main (groupByServer bs) [] (by intro p hp; cases hp)
  · unfold discover_chains
    have main : ∀ (gs : List (String × List BackupEntry)) (acc : List (String × List BackupEntry)),
        (acc.map Prod.fst).Nodup →
        ((gs.foldl (fun acc g => buildChains acc (List.insertionSort entryLe g.2)) acc).map
          Prod.fst).Nodup := by
      intro gs
      induction gs with
      | nil =>
        intro acc h
        exact h
      | cons g rest ih =>
        intro acc hacc
        rw [List.foldl_cons]
        exact ih _ (buildChains_nodup_keys _ _ hacc)
    exact main (groupByServer bs) [] (by simp)

theorem discover_chains_key_from_base_witness :
    ∃ base, ([c9b] : List BackupEntry).head? = some base ∧
      base.is_incremental = false ∧
      "srv_2024-01-01T00:00:00" = base.server_name ++ "_" ++ pyTake base.timestamp 19 :=
  (discover_chains_key_from_base [c9a, c9b]).1
    ("srv_2024-01-01T00:00:00", [c9b]) (by decide)

/-! ### C1: preview versus apply -/

/-- Guild with the upper-case role name ADMIN against a backup role named
Admin: preview's case-insensitive check says the role exists (no creation),
but apply's exact-name check does not find it and creates it. -/
def c1brs : List (String × RoleData) := [("1", { name := some "Admin", position := none })]

def c1groles : List String := ["@everyone", "ADMIN"]

/-- C1 counterexample: against the same starting target state the set of
roles preview says would be created is empty, while apply actually creates
the role `Admin` — preview compares names case-insensitively but apply's
skip-if-exists check is exact-case, so the two disagree. -/
theorem preview_apply_role_create_disagree :
    preview_roles_to_create c1groles c1brs = [] ∧
    (recreate_server_sets [] c1groles [] c1brs).roles_created = ["Admin"] ∧
    (preview_roles_to_create c1groles c1brs).toFinset ≠
      (recreate_server_sets [] c1groles [] c1brs).roles_created.toFinset := by
  refine ⟨by decide, by decide, by decide⟩

theorem mem_backup_role_names {brs : List (String × RoleData)} {p : String × RoleData}
    {n : String} (hp : p ∈ brs) (hn : p.2.name = some n) (hne : n ≠ "")
    (hlow : pyLower n = n) : n ∈ backup_role_names brs := by
  unfold backup_role_names
  rw [List.mem_filterMap]
  refine ⟨p, hp, ?_⟩
  rw [hn]
  simp [hne, hlow]

theorem mem_backup_channel_names {bcs : List (String × ChannelData)} {p : String × ChannelData}
    {n : String} (hp : p ∈ bcs) (hn : p.2.name = some n) (hne : n ≠ "")
    (hlow : pyLower n = n) : n ∈ backup_channel_names bcs := by
  unfold backup_channel_names
  rw [List.mem_filterMap]
  refine ⟨p, hp, ?_⟩
  rw [hn]
  simp [hne, hlow]

theorem map_pyLower_id {l : List String} (h : ∀ r ∈ l, pyLower r = r) :
    l.map pyLower = l := by
  induction l with
  | nil => rfl
  | cons a rest ih =>
    rw [List.map_cons, h a (List.mem_cons_self _ _),
      ih (fun r hr => h r (List.mem_cons_of_mem _ hr))]

theorem preview_roles_to_create_mem {groles : List String} {brs : List (String × RoleData)}
    (hbr : ∀ p ∈ brs, ∃ n, p.2.name = some n ∧ n ≠ "" ∧ pyLower n = n)
    (hg : ∀ r ∈ groles, pyLower r = r) :
    ∀ x, x ∈ preview_roles_to_create groles brs ↔
      ∃ p ∈ brs, p.2.name = some x ∧ x ∉ groles := by
  intro x
  unfold preview_roles_to_create
  rw [List.mem_map]
  constructor
  · rintro ⟨p, hp, hpx⟩
    have hpmem := (List.mem_filter.mp hp).1
    have hcond := (List.mem_filter.mp hp).2
    obtain ⟨n, hn, hne, hlow⟩ := hbr p hpmem
    rw [hn] at hpx
    simp only [Option.getD_some] at hpx
    subst hpx
    refine ⟨p, hpmem, hn, ?_⟩
    intro hxg
    rw [hn] at hcond
    simp only [Option.getD_some, hlow, Bool.not_eq_true'] at hcond
    rw [map_pyLower_id hg] at hcond
    have hcx : groles.contains n = true := by simpa using hxg
    rw [hcx] at hcond
    cases hcond
  · rintro ⟨p, hp, hn, hxg⟩
    obtain ⟨n, hn', hne, hlow⟩ := hbr p hp
    rw [hn'] at hn
    have hxn : n = x := Option.some.inj hn
    subst hxn
    refine ⟨p, ?_, by rw [hn']; rfl⟩
    rw [List.mem_filter]
    refine ⟨hp, ?_⟩
    rw [hn']
    simp only [Option.getD_some, hlow, Bool.not_eq_true']
    rw [map_pyLower_id hg]
    simpa using hxg

theorem preview_channels_to_create_mem {gchannels : List GChannel}
    {bcs : List (String × ChannelData)}
    (hbc : ∀ p ∈ bcs, ∃ n, p.2.name = some n ∧ n ≠ "" ∧ pyLower n = n)
    (hg : ∀ c ∈ gchannels, pyLower c.name = c.name) :
    ∀ x, x ∈ preview_channels_to_create gchannels bcs ↔
      ∃ p ∈ bcs, p.2.name = some x ∧ ¬ ∃ c ∈ gchannels, c.name = x := by
  intro x
  unfold preview_channels_to_create
  rw [List.mem_map]
  have hmapeq : gchannels.map (fun c => pyLower c.name) = gchannels.map (fun c => c.name) :=
    List.map_congr_left hg
  constructor
  · rintro ⟨p, hp, hpx⟩
    have hpmem := (List.mem_filter.mp hp).1
    have hcond := (List.mem_filter.mp hp).2
    obtain ⟨n, hn, hne, hlow⟩ := hbc p hpmem
    rw [hn] at hpx
    simp only [Option.getD_some] at hpx
    subst hpx
    refine ⟨p, hpmem, hn, ?_⟩
    rintro ⟨c, hc, hcn⟩
    rw [hn] at hcond
    simp only [Option.getD_some, hlow, Bool.not_eq_true'] at hcond
    rw [hmapeq] at hcond
    have hmem : n ∈ gchannels.map (fun c => c.name) := List.mem_map.mpr ⟨c, hc, hcn⟩
    have hcx : (gchannels.map (fun c => c.name)).contains n = true := by simpa using hmem
    rw [hcx] at hcond
    cases hcond
  · rintro ⟨p, hp, hn, hxg⟩
    obtain ⟨n, hn', hne, hlow⟩ := hbc p hp
    rw [hn'] at hn
    have hxn : n = x := Option.some.inj hn
    subst hxn
    refine ⟨p, ?_, by rw [hn']; rfl⟩
    rw [List.mem_filter]
    refine ⟨hp, ?_⟩
    rw [hn']
    simp only [Option.getD_some, hlow, Bool.not_eq_true']
    rw [hmapeq]
    have : n ∉ gchannels.map (fun c => c.name) := by
      intro hmem
      obtain ⟨c, hc, hcn⟩ := List.mem_map.mp hmem
      exact hxg ⟨c, hc, hcn⟩
    simpa using this

theorem cleanup_roles_kept_iff {groles : List String} {brs : List (String × RoleData)}
    {n : String} (hnb : n ∈ backup_role_names brs) (hlow : pyLower n = n) :
    n ∈ (cleanup_roles groles brs).1 ↔ n ∈ groles := by
  unfold cleanup_roles
  simp only
  constructor
  · intro h
    exact (List.mem_filter.mp h).1
  · intro h
    rw [List.mem_filter]
    refine ⟨h, ?_⟩
    rw [hlow]
    have hcx : (backup_role_names brs).contains n = true := by simpa using hnb
    simp only [hcx, Bool.or_true]

theorem recreate_roles_go_mem :
    ∀ (rs : List (String × RoleData)) (cur base : List String),
      (rs.map (fun p => p.2.name.getD "")).Nodup →
      (∀ p ∈ rs, ∀ n, p.2.name = some n → (n ∈ cur ↔ n ∈ base)) →
      ∀ x, x ∈ (recreate_roles_go cur rs).2 ↔
        ∃ p ∈ rs, p.2.name = some x ∧ x ∉ base := by
  intro rs
  induction rs with
  | nil =>
    intro cur base _ _ x
    simp [recreate_roles_go]
  | cons p rest ih =>
    intro cur base hnd hinv x
    have hndtail : (rest.map (fun p => p.2.name.getD "")).Nodup := (List.nodup_cons.mp hnd).2
    have hheadnotin : p.2.name.getD "" ∉ rest.map (fun p => p.2.name.getD "") :=
      (List.nodup_cons.mp hnd).1
    cases hn : p.2.name with
    | none =>
      simp only [recreate_roles_go, hn]
      rw [ih cur base hndtail (fun q hq => hinv q (List.mem_cons_of_mem _ hq))]
      constructor
      · rintro ⟨q, hq, hqn, hx⟩
        exact ⟨q, List.mem_cons_of_mem _ hq, hqn, hx⟩
      · rintro ⟨q, hq, hqn, hx⟩
        rcases List.mem_cons.mp hq with h1 | h1
        · subst h1
          rw [hn] at hqn
          cases hqn
        · exact ⟨q, h1, hqn, hx⟩
    | some n =>
      by_cases hc : cur.contains n
      · have hcur : n ∈ cur := by simpa using hc
        have hbase : n ∈ base := (hinv p (List.mem_cons_self _ _) n hn).mp hcur
        simp only [recreate_roles_go, hn, hc, if_true]
        rw [ih cur base hndtail (fun q hq => hinv q (List.mem_cons_of_mem _ hq))]
        constructor
        · rintro ⟨q, hq, hqn, hx⟩
          exact ⟨q, List.mem_cons_of_mem _ hq, hqn, hx⟩
        · rintro ⟨q, hq, hqn, hx⟩
          rcases List.mem_cons.mp hq with h1 | h1
          · subst h1
            rw [hn] at hqn
            have hnx : n = x := Option.some.inj hqn
            subst hnx
            exact absurd hbase hx
          · exact ⟨q, h1, hqn, hx⟩
      · have hcur : n ∉ cur := by simpa using hc
        have hbase : n ∉ base := fun hb => hcur ((hinv p (List.mem_cons_self _ _) n hn).mpr hb)
        have hinvtail : ∀ q ∈ rest, ∀ m, q.2.name = some m → (m ∈ cur ++ [n] ↔ m ∈ base) := by
          intro q hq m hm
          have hmn : m ≠ n := by
            intro he
            apply hheadnotin
            rw [hn]
            simp only [Option.getD_some]
            refine List.mem_map.mpr ⟨q, hq, ?_⟩
            rw [hm, he]
            rfl
          rw [List.mem_append]
          simp only [List.mem_singleton]
          constructor
          · rintro (h1 | h1)
            · exact (hinv q (List.mem_cons_of_mem _ hq) m hm).mp h1
            · exact absurd h1 hmn
          · intro h1
            exact Or.inl ((hinv q (List.mem_cons_of_mem _ hq) m hm).mpr h1)
        have hcf : cur.contains n = false := by simpa using hc
        simp only [recreate_roles_go, hn, hcf, Bool.false_eq_true, if_false]
        rw [List.mem_cons, ih (cur ++ [n]) base hndtail hinvtail]
        constructor
        · rintro (h1 | ⟨q, hq, hqn, hx⟩)
          · subst h1
            exact ⟨p, List.mem_cons_self _ _, hn, hbase⟩
          · exact ⟨q, List.mem_cons_of_mem _ hq, hqn, hx⟩
        · rintro ⟨q, hq, hqn, hx⟩
          rcases List.mem_cons.mp hq with h1 | h1
          · subst h1
            rw [hn] at hqn
            exact Or.inl (Option.some.inj hqn).symm
          · exact Or.inr ⟨q, h1, hqn, hx⟩

theorem apply_roles_created_mem {groles : List String} {brs : List (String × RoleData)}
    (hbr : ∀ p ∈ brs, ∃ n, p.2.name = some n ∧ n ≠ "" ∧ pyLower n = n)
    (hnd : (brs.map (fun p => p.2.name.getD "")).Nodup) :
    ∀ x, x ∈ (recreate_roles (cleanup_roles groles brs).1 brs).2 ↔
      ∃ p ∈ brs, p.2.name = some x ∧ x ∉ groles := by
  intro x
  unfold recreate_roles
  have hperm := List.perm_insertionSort posLe brs
  have hndsort : ((List.insertionSort posLe brs).map (fun p => p.2.name.getD "")).Nodup :=
    (hperm.symm.map _).nodup hnd
  rw [recreate_roles_go_mem _ _ groles hndsort ?inv x]
  case inv =>
    intro q hq m hm
    have hqb : q ∈ brs := hperm.mem_iff.mp hq
    obtain ⟨n, hn, hne, hlow⟩ := hbr q hqb
    rw [hn] at hm
    have hnm : n = m := Option.some.inj hm
    subst hnm
    exact cleanup_roles_kept_iff (mem_backup_role_names hqb hn hne hlow) hlow
  constructor
  · rintro ⟨q, hq, hqn, hx⟩
    exact ⟨q, hperm.mem_iff.mp hq, hqn, hx⟩
  · rintro ⟨q, hq, hqn, hx⟩
    exact ⟨q, hperm.mem_iff.mpr hq, hqn, hx⟩

theorem cat_check_iff (cur : List GChannel) (n : String) :
    ((cur.filter fun c => c.ctype == "category").any (fun c => c.name == n) = true) ↔
      ∃ c ∈ cur, c.ctype = "category" ∧ c.name = n := by
  rw [List.any_eq_true]
  constructor
  · rintro ⟨c, hc, hcn⟩
    have h1 := List.mem_filter.mp hc
    exact ⟨c, h1.1, by simpa using h1.2, by simpa using hcn⟩
  · rintro ⟨c, hc, hct, hcn⟩
    exact ⟨c, List.mem_filter.mpr ⟨hc, by simpa using hct⟩, by simpa using hcn⟩

theorem name_check_iff (cur : List GChannel) (n : String) :
    (cur.any (fun c => c.name == n) = true) ↔ ∃ c ∈ cur, c.name = n := by
  rw [List.any_eq_true]
  constructor
  · rintro ⟨c, hc, hcn⟩
    exact ⟨c, hc, by simpa using hcn⟩
  · rintro ⟨c, hc, hcn⟩
    exact ⟨c, hc, by simpa using hcn⟩

theorem recreate_categories_go_mem :
    ∀ (cs : List (String × ChannelData)) (cur : List GChannel) (Q : String → Prop),
      (cs.map (fun p => p.2.name.getD "")).Nodup →
      (∀ p ∈ cs, ∀ n, p.2.name = some n →
        ((∃ c ∈ cur, c.ctype = "category" ∧ c.name = n) ↔ Q n)) →
      ∀ x, x ∈ (recreate_categories_go cur cs).2 ↔ ∃ p ∈ cs, p.2.name = some x ∧ ¬ Q x := by
  intro cs
  induction cs with
  | nil =>
    intro cur Q _ _ x
    simp [recreate_categories_go]
  | cons p rest ih =>
    intro cur Q hnd hinv x
    have hndtail : (rest.map (fun p => p.2.name.getD "")).Nodup := (List.nodup_cons.mp hnd).2
    have hheadnotin : p.2.name.getD "" ∉ rest.map (fun p => p.2.name.getD "") :=
      (List.nodup_cons.mp hnd).1
    cases hn : p.2.name with
    | none =>
      simp only [recreate_categories_go, hn]
      rw [ih cur Q hndtail (fun q hq => hinv q (List.mem_cons_of_mem _ hq))]
      constructor
      · rintro ⟨q, hq, hqn, hx⟩
        exact ⟨q, List.mem_cons_of_mem _ hq, hqn, hx⟩
      · rintro ⟨q, hq, hqn, hx⟩
        rcases List.mem_cons.mp hq with h1 | h1
        · subst h1
          rw [hn] at hqn
          cases hqn
        · exact ⟨q, h1, hqn, hx⟩
    | some n =>
      by_cases hc : ((cur.filter fun c => c.ctype == "category").any (fun c => c.name == n)) = true
      · have hQ : Q n := (hinv p (List.mem_cons_self _ _) n hn).mp ((cat_check_iff cur n).mp hc)
        simp only [recreate_categories_go, hn, hc, if_true]
        rw [ih cur Q hndtail (fun q hq => hinv q (List.mem_cons_of_mem _ hq))]
        constructor
        · rintro ⟨q, hq, hqn, hx⟩
          exact ⟨q, List.mem_cons_of_mem _ hq, hqn, hx⟩
        · rintro ⟨q, hq, hqn, hx⟩
          rcases List.mem_cons.mp hq with h1 | h1
          · subst h1
            rw [hn] at hqn
            have hnx : n = x := Option.some.inj hqn
            subst hnx
            exact absurd hQ hx
          · exact ⟨q, h1, hqn, hx⟩
      · have hnQ : ¬ Q n := fun hq =>
          (by simpa using hc : ¬ _) ((cat_check_iff cur n).mpr
            ((hinv p (List.mem_cons_self _ _) n hn).mpr hq))
        have hinvtail : ∀ q ∈ rest, ∀ m, q.2.name = some m →
            ((∃ c ∈ cur ++ [(⟨n, "category"⟩ : GChannel)], c.ctype = "category" ∧ c.name = m) ↔ Q m) := by
          intro q hq m hm
          have hmn : m ≠ n := by
            intro he
            apply hheadnotin
            rw [hn]
            simp only [Option.getD_some]
            refine List.mem_map.mpr ⟨q, hq, ?_⟩
            rw [hm, he]
            rfl
          rw [← hinv q (List.mem_cons_of_mem _ hq) m hm]
          constructor
          · rintro ⟨c, hcm, hct, hcn⟩
            rcases List.mem_append.mp hcm with h1 | h1
            · exact ⟨c, h1, hct, hcn⟩
            · have hce : c = (⟨n, "category"⟩ : GChannel) := by simpa using h1
              rw [hce] at hcn
              exact (hmn (by simpa using hcn.symm)).elim
          · rintro ⟨c, hcm, hct, hcn⟩
            exact ⟨c, List.mem_append.mpr (Or.inl hcm), hct, hcn⟩
        have hcf : ((cur.filter fun c => c.ctype == "category").any (fun c => c.name == n)) = false := by
          simpa using hc
        simp only [recreate_categories_go, hn, hcf, Bool.false_eq_true, if_false]
        try rw [List.mem_cons]
        rw [ih (cur ++ [(⟨n, "category"⟩ : GChannel)]) Q hndtail hinvtail]
        constructor
        · rintro (h1 | ⟨q, hq, hqn, hx⟩)
          · subst h1
            exact ⟨p, List.mem_cons_self _ _, hn, hnQ⟩
          · exact ⟨q, List.mem_cons_of_mem _ hq, hqn, hx⟩
        · rintro ⟨q, hq, hqn, hx⟩
          rcases List.mem_cons.mp hq with h1 | h1
          · subst h1
            rw [hn] at hqn
            exact Or.inl (Option.some.inj hqn).symm
          · exact Or.inr ⟨q, h1, hqn, hx⟩

theorem recreate_categories_go_state :
    ∀ (cs : List (String × ChannelData)) (cur : List GChannel),
      (recreate_categories_go cur cs).1 =
        cur ++ ((recreate_categories_go cur cs).2).map (fun n => (⟨n, "category"⟩ : GChannel)) := by
  intro cs
  induction cs with
  | nil =>
    intro cur
    simp [recreate_categories_go]
  | cons p rest ih =>
    intro cur
    cases hn : p.2.name with
    | none =>
      simp only [recreate_categories_go, hn]
      exact ih cur
    | some n =>
      by_cases hc : ((cur.filter fun c => c.ctype == "category").any (fun c => c.name == n)) = true
      · simp only [recreate_categories_go, hn, hc, if_true]
        exact ih cur
      · have hcf : ((cur.filter fun c => c.ctype == "category").any (fun c => c.name == n)) = false := by
          simpa using hc
        simp only [recreate_categories_go, hn, hcf, Bool.false_eq_true, if_false, List.map_cons]
        rw [ih (cur ++ [(⟨n, "category"⟩ : GChannel)])]
        simp

theorem recreate_regular_go_mem :
    ∀ (cs : List (String × ChannelData)) (cur : List GChannel) (Q : String → Prop),
      (cs.map (fun p => p.2.name.getD "")).Nodup →
      (∀ p ∈ cs, p.2.ctype.getD "text" = "text" ∨ p.2.ctype.getD "text" = "voice" ∨
        p.2.ctype.getD "text" = "forum") →
      (∀ p ∈ cs, ∀ n, p.2.name = some n → ((∃ c ∈ cur, c.name = n) ↔ Q n)) →
      ∀ x, x ∈ (recreate_regular_go cur cs).2 ↔ ∃ p ∈ cs, p.2.name = some x ∧ ¬ Q x := by
  intro cs
  induction cs with
  | nil =>
    intro cur Q _ _ _ x
    simp [recreate_regular_go]
  | cons p rest ih =>
    intro cur Q hnd hsupp hinv x
    have hndtail : (rest.map (fun p => p.2.name.getD "")).Nodup := (List.nodup_cons.mp hnd).2
    have hheadnotin : p.2.name.getD "" ∉ rest.map (fun p => p.2.name.getD "") :=
      (List.nodup_cons.mp hnd).1
    have hsupptail : ∀ q ∈ rest, q.2.ctype.getD "text" = "text" ∨
        q.2.ctype.getD "text" = "voice" ∨ q.2.ctype.getD "text" = "forum" :=
      fun q hq => hsupp q (List.mem_cons_of_mem _ hq)
    cases hn : p.2.name with
    | none =>
      simp only [recreate_regular_go, hn]
      rw [ih cur Q hndtail hsupptail (fun q hq => hinv q (List.mem_cons_of_mem _ hq))]
      constructor
      · rintro ⟨q, hq, hqn, hx⟩
        exact ⟨q, List.mem_cons_of_mem _ hq, hqn, hx⟩
      · rintro ⟨q, hq, hqn, hx⟩
        rcases List.mem_cons.mp hq with h1 | h1
        · subst h1
          rw [hn] at hqn
          cases hqn
        · exact ⟨q, h1, hqn, hx⟩
    | some n =>
      by_cases hc : (cur.any (fun c => c.name == n)) = true
      · have hQ : Q n := (hinv p (List.mem_cons_self _ _) n hn).mp ((name_check_iff cur n).mp hc)
        simp only [recreate_regular_go, hn, hc, if_true]
        rw [ih cur Q hndtail hsupptail (fun q hq => hinv q (List.mem_cons_of_mem _ hq))]
        constructor
        · rintro ⟨q, hq, hqn, hx⟩
          exact ⟨q, List.mem_cons_of_mem _ hq, hqn, hx⟩
        · rintro ⟨q, hq, hqn, hx⟩
          rcases List.mem_cons.mp hq with h1 | h1
          · subst h1
            rw [hn] at hqn
            have hnx : n = x := Option.some.inj hqn
            subst hnx
            exact absurd hQ hx
          · exact ⟨q, h1, hqn, hx⟩
      · have hnQ : ¬ Q n := fun hq =>
          (by simpa using hc : ¬ _) ((name_check_iff cur n).mpr
            ((hinv p (List.mem_cons_self _ _) n hn).mpr hq))
        have htyb : ((p.2.ctype.getD "text") == "text" || (p.2.ctype.getD "text") == "voice" ||
            (p.2.ctype.getD "text") == "forum") = true := by
          rcases hsupp p (List.mem_cons_self _ _) with h | h | h <;> simp [h]
        have hinvtail : ∀ q ∈ rest, ∀ m, q.2.name = some m →
            ((∃ c ∈ cur ++ [(⟨n, p.2.ctype.getD "text"⟩ : GChannel)], c.name = m) ↔ Q m) := by
          intro q hq m hm
          have hmn : m ≠ n := by
            intro he
            apply hheadnotin
            rw [hn]
            simp only [Option.getD_some]
            refine List.mem_map.mpr ⟨q, hq, ?_⟩
            rw [hm, he]
            rfl
          rw [← hinv q (List.mem_cons_of_mem _ hq) m hm]
          constructor
          · rintro ⟨c, hcm, hcn⟩
            rcases List.mem_append.mp hcm with h1 | h1
            · exact ⟨c, h1, hcn⟩
            · have hce : c = (⟨n, p.2.ctype.getD "text"⟩ : GChannel) := by simpa using h1
              rw [hce] at hcn
              exact (hmn (by simpa using hcn.symm)).elim
          · rintro ⟨c, hcm, hcn⟩
            exact ⟨c, List.mem_append.mpr (Or.inl hcm), hcn⟩
        have hcf : (cur.any (fun c => c.name == n)) = false := by simpa using hc
        simp only [recreate_regular_go, hn, hcf, Bool.false_eq_true, if_false, htyb, if_true]
        try rw [List.mem_cons]
        rw [ih (cur ++ [(⟨n, p.2.ctype.getD "text"⟩ : GChannel)]) Q hndtail hsupptail hinvtail]
        constructor
        · rintro (h1 | ⟨q, hq, hqn, hx⟩)
          · subst h1
            exact ⟨p, List.mem_cons_self _ _, hn, hnQ⟩
          · exact ⟨q, List.mem_cons_of_mem _ hq, hqn, hx⟩
        · rintro ⟨q, hq, hqn, hx⟩
          rcases List.mem_cons.mp hq with h1 | h1
          · subst h1
            rw [hn] at hqn
            exact Or.inl (Option.some.inj hqn).symm
          · exact Or.inr ⟨q, h1, hqn, hx⟩

theorem apply_channels_created_mem {gchannels : List GChannel} {bcs : List (String × ChannelData)}
    (hbc : ∀ p ∈ bcs, ∃ n, p.2.name = some n ∧ n ≠ "" ∧ pyLower n = n)
    (hg : ∀ c ∈ gchannels, pyLower c.name = c.name)
    (hnd : (bcs.map (fun p => p.2.name.getD "")).Nodup)
    (htype : ∀ p ∈ bcs, p.2.ctype = some "category" ∨ p.2.ctype.getD "text" = "text" ∨
      p.2.ctype.getD "text" = "voice" ∨ p.2.ctype.getD "text" = "forum")
    (hcat : ∀ p ∈ bcs, p.2.ctype = some "category" → ∀ n, p.2.name = some n →
      (∃ c ∈ gchannels, c.name = n) → ∃ c ∈ gchannels, c.name = n ∧ c.ctype = "category") :
    ∀ x, x ∈ (recreate_channels (cleanup_channels gchannels bcs).1 bcs).2 ↔
      ∃ p ∈ bcs, p.2.name = some x ∧ ¬ ∃ c ∈ gchannels, c.name = x := by
  intro x
  have hpermfil := List.filter_append_perm (fun p => p.2.ctype == some "category") bcs
  have hndapp : (((bcs.filter fun p => p.2.ctype == some "category") ++
      (bcs.filter fun p => !(p.2.ctype == some "category"))).map
      (fun p => p.2.name.getD "")).Nodup := (hpermfil.symm.map _).nodup hnd
  rw [List.map_append, List.nodup_append] at hndapp
  obtain ⟨hndcats, hndregs, hdisj⟩ := hndapp
  have hkept : ∀ {c : GChannel}, c ∈ (cleanup_channels gchannels bcs).1 ↔
      c ∈ gchannels ∧ (backup_channel_names bcs).contains (pyLower c.name) = true := by
    intro c
    exact List.mem_filter
  have hkeptname : ∀ {n : String}, n ∈ backup_channel_names bcs → pyLower n = n →
      ∀ {c : GChannel}, c ∈ gchannels → c.name = n →
      c ∈ (cleanup_channels gchannels bcs).1 := by
    intro n hnb hlow c hcg hcn
    refine hkept.mpr ⟨hcg, ?_⟩
    rw [hg c hcg, hcn]
    simpa using hnb
  have invCats : ∀ p ∈ (bcs.filter fun p => p.2.ctype == some "category"), ∀ n,
      p.2.name = some n →
      ((∃ c ∈ (cleanup_channels gchannels bcs).1, c.ctype = "category" ∧ c.name = n) ↔
        ∃ c ∈ gchannels, c.name = n) := by
    intro p hp n hn
    have hpb : p ∈ bcs := (List.mem_filter.mp hp).1
    have hpcty : p.2.ctype = some "category" := by
      have h' := (List.mem_filter.mp hp).2
      simpa using h'
    obtain ⟨n', hn', hne, hlow⟩ := hbc p hpb
    rw [hn'] at hn
    have hnn : n' = n := Option.some.inj hn
    subst hnn
    constructor
    · rintro ⟨c, hc, _, hcn⟩
      exact ⟨c, (hkept.mp hc).1, hcn⟩
    · intro hQ
      obtain ⟨c, hcg, hcn, hcty⟩ := hcat p hpb hpcty n' hn' hQ
      exact ⟨c, hkeptname (mem_backup_channel_names hpb hn' hne hlow) hlow hcg hcn, hcty, hcn⟩
  have memCats := recreate_categories_go_mem
    (bcs.filter fun p => p.2.ctype == some "category")
    (cleanup_channels gchannels bcs).1 (fun n => ∃ c ∈ gchannels, c.name = n) hndcats invCats
  have hstate := recreate_categories_go_state
    (bcs.filter fun p => p.2.ctype == some "category") (cleanup_channels gchannels bcs).1
  have hcreatedcats : ∀ {m : String},
      m ∈ (recreate_categories_go (cleanup_channels gchannels bcs).1
        (bcs.filter fun p => p.2.ctype == some "category")).2 →
      m ∈ ((bcs.filter fun p => p.2.ctype == some "category").map
        (fun p => p.2.name.getD "")) := by
    intro m hm
    obtain ⟨p, hp, hpn, _⟩ := (memCats m).mp hm
    refine List.mem_map.mpr ⟨p, hp, ?_⟩
    rw [hpn]
    rfl
  have invRegs : ∀ q ∈ (bcs.filter fun p => !(p.2.ctype == some "category")), ∀ m,
      q.2.name = some m →
      ((∃ c ∈ (recreate_categories_go (cleanup_channels gchannels bcs).1
          (bcs.filter fun p => p.2.ctype == some "category")).1, c.name = m) ↔
        ∃ c ∈ gchannels, c.name = m) := by
    intro q hq m hm
    have hqb : q ∈ bcs := (List.mem_filter.mp hq).1
    obtain ⟨m', hm', hne, hlow⟩ := hbc q hqb
    rw [hm'] at hm
    have hmm : m' = m := Option.some.inj hm
    subst hmm
    have hmreg : m' ∈ ((bcs.filter fun p => !(p.2.ctype == some "category")).map
        (fun p => p.2.name.getD "")) := by
      refine List.mem_map.mpr ⟨q, hq, ?_⟩
      rw [hm']
      rfl
    rw [hstate]
    constructor
    · rintro ⟨c, hc, hcn⟩
      rcases List.mem_append.mp hc with h1 | h1
      · exact ⟨c, (hkept.mp h1).1, hcn⟩
      · obtain ⟨mc, hmc, hmce⟩ := List.mem_map.mp h1
        rw [← hmce] at hcn
        simp only at hcn
        rw [hcn] at hmc
        exact absurd hmreg (hdisj (hcreatedcats hmc))
    · rintro ⟨c, hcg, hcn⟩
      exact ⟨c, List.mem_append.mpr (Or.inl
        (hkeptname (mem_backup_channel_names hqb hm' hne hlow) hlow hcg hcn)), hcn⟩
  have hsuppregs : ∀ q ∈ (bcs.filter fun p => !(p.2.ctype == some "category")),
      q.2.ctype.getD "text" = "text" ∨ q.2.ctype.getD "text" = "voice" ∨
      q.2.ctype.getD "text" = "forum" := by
    intro q hq
    have hqb : q ∈ bcs := (List.mem_filter.mp hq).1
    have hqc : ¬ q.2.ctype = some "category" := by
      have h' := (List.mem_filter.mp hq).2
      simpa using h'
    rcases htype q hqb with h | h
    · exact absurd h hqc
    · exact h
  have memRegs := recreate_regular_go_mem
    (bcs.filter fun p => !(p.2.ctype == some "category"))
    (recreate_categories_go (cleanup_channels gchannels bcs).1
      (bcs.filter fun p => p.2.ctype == some "category")).1
    (fun n => ∃ c ∈ gchannels, c.name = n) hndregs hsuppregs invRegs
  unfold recreate_channels
  simp only [List.mem_append]
  rw [memCats x, memRegs x]
  constructor
  · rintro (⟨p, hp, hpn, hx⟩ | ⟨p, hp, hpn, hx⟩)
    · exact ⟨p, (List.mem_filter.mp hp).1, hpn, hx⟩
    · exact ⟨p, (List.mem_filter.mp hp).1, hpn, hx⟩
  · rintro ⟨p, hp, hpn, hx⟩
    rcases List.mem_append.mp (hpermfil.mem_iff.mpr hp) with h1 | h1
    · exact Or.inl ⟨p, h1, hpn, hx⟩
    · exact Or.inr ⟨p, h1, hpn, hx⟩

/-- C1 (amended): the removal lists of preview and apply always coincide
(they are the same computation), and the creation sets coincide provided the
name comparisons cannot diverge: every backup channel/role has a non-empty
name that is already lower-case, all target channel/role names are
lower-case, backup names are pairwise distinct per kind, every backup channel
type is one of category/text/voice/forum, and a target channel sharing a
backup category's name is itself a category.  The unrestricted claim is
false: preview compares case-insensitively while apply skips on exact names
only, diverging on case-differing names (see the counterexample), duplicate
backup names, unsupported channel types, and category/channel type clashes. -/
theorem preview_matches_apply {gchannels : List GChannel} {groles : List String}
    {bcs : List (String × ChannelData)} {brs : List (String × RoleData)}
    (hbr : ∀ p ∈ brs, ∃ n, p.2.name = some n ∧ n ≠ "" ∧ pyLower n = n)
    (hbc : ∀ p ∈ bcs, ∃ n, p.2.name = some n ∧ n ≠ "" ∧ pyLower n = n)
    (hgr : ∀ r ∈ groles, pyLower r = r)
    (hgc : ∀ c ∈ gchannels, pyLower c.name = c.name)
    (hndr : (brs.map (fun p => p.2.name.getD "")).Nodup)
    (hndc : (bcs.map (fun p => p.2.name.getD "")).Nodup)
    (htype : ∀ p ∈ bcs, p.2.ctype = some "category" ∨ p.2.ctype.getD "text" = "text" ∨
      p.2.ctype.getD "text" = "voice" ∨ p.2.ctype.getD "text" = "forum")
    (hcat : ∀ p ∈ bcs, p.2.ctype = some "category" → ∀ n, p.2.name = some n →
      (∃ c ∈ gchannels, c.name = n) → ∃ c ∈ gchannels, c.name = n ∧ c.ctype = "category") :
    preview_channels_to_remove gchannels bcs =
      (recreate_server_sets gchannels groles bcs brs).channels_removed ∧
    preview_roles_to_remove groles brs =
      (recreate_server_sets gchannels groles bcs brs).roles_removed ∧
    (preview_roles_to_create groles brs).toFinset =
      (recreate_server_sets gchannels groles bcs brs).roles_created.toFinset ∧
    (preview_channels_to_create gchannels bcs).toFinset =
      (recreate_server_sets gchannels groles bcs brs).channels_created.toFinset := by
  refine ⟨rfl, rfl, ?_, ?_⟩
  · apply Finset.ext
    intro x
    simp only [List.mem_toFinset]
    have h1 := (preview_roles_to_create_mem hbr hgr x).trans
      (apply_roles_created_mem hbr hndr x).symm
    exact h1
  · apply Finset.ext
    intro x
    simp only [List.mem_toFinset]
    have h2 := (preview_channels_to_create_mem hbc hgc x).trans
      (apply_channels_created_mem hbc hgc hndc htype hcat x).symm
    exact h2

/-- Scenario of the spec: target holds channels general and off-topic and
role admin; the snapshot lists channels general, rules, voice-lounge and
roles admin, mods — all names lower-case and distinct. -/
def c1wgch : List GChannel := [⟨"general", "text"⟩, ⟨"off-topic", "text"⟩]

def c1wgr : List String := ["@everyone", "admin"]

def c1wbcs : List (String × ChannelData) :=
  [("1", { name := some "general", ctype := some "text", messages := [] }),
   ("2", { name := some "rules", ctype := some "text", messages := [] }),
   ("3", { name := some "voice-lounge", ctype := some "voice", messages := [] })]

def c1wbrs : List (String × RoleData) :=
  [("1", { name := some "admin", position := some 0 }),
   ("2", { name := some "mods", position := some 1 })]

theorem preview_matches_apply_witness :
    preview_channels_to_remove c1wgch c1wbcs =
      (recreate_server_sets c1wgch c1wgr c1wbcs c1wbrs).channels_removed ∧
    preview_roles_to_remove c1wgr c1wbrs =
      (recreate_server_sets c1wgch c1wgr c1wbcs c1wbrs).roles_removed ∧
    (preview_roles_to_create c1wgr c1wbrs).toFinset =
      (recreate_server_sets c1wgch c1wgr c1wbcs c1wbrs).roles_created.toFinset ∧
    (preview_channels_to_create c1wgch c1wbcs).toFinset =
      (recreate_server_sets c1wgch c1wgr c1wbcs c1wbrs).channels_created.toFinset := by
  apply preview_matches_apply
  · intro p hp
    fin_cases hp
    · exact ⟨"admin", rfl, by decide, by decide⟩
    · exact ⟨"mods", rfl, by decide, by decide⟩
  · intro p hp
    fin_cases hp
    · exact ⟨"general", rfl, by decide, by decide⟩
    · exact ⟨"rules", rfl, by decide, by decide⟩
    · exact ⟨"voice-lounge", rfl, by decide, by decide⟩
  · intro r hr
    fin_cases hr
    · decide
    · decide
  · intro c hc
    fin_cases hc
    · decide
    · decide
  · decide
  · decide
  · intro p hp
    fin_cases hp
    · exact Or.inr (Or.inl rfl)
    · exact Or.inr (Or.inl rfl)
    · exact Or.inr (Or.inr (Or.inl rfl))
  · intro p hp
    fin_cases hp
    · intro hcty
      exact absurd hcty (by decide)
    · intro hcty
      exact absurd hcty (by decide)
    · intro hcty
      exact absurd hcty (by decide)
